import Mathlib

/-!
# Paralels: block partitioner, matrix-vector kernels and the thread pool

A shallow embedding of

* `src/Task3/task3.1/main.cpp` (`ThreadPool`, `Multiplication`),
* `src/Task2/2.1/source/main.c` (`matrix_vector_product`, `matrix_vector_product_omp`),
* `src/Task2/2.2/source/main.c` (`integrate_omp`, block bounds only).

C `int` values are integers, and every arithmetic operation on them is followed by
`wrapInt`, the reduction to 32 bits.
-/

namespace Paralels

/-! ## C `int` arithmetic -/

/-- Largest value of a C `int`. -/
def INT_MAX : Int := 2147483647

/-- Reduction of an integer to the range of a 32-bit two's complement `int`. -/
def wrapInt (x : Int) : Int := (x + 2147483648) % 4294967296 - 2147483648

/-! ## The block partitioner

The three kernels compute the bounds of block `i` with the same three statements
(`main.cpp` 77, 81-82 and 101-102; `2.1/main.c` 21-23; `2.2/main.c` 44-46). -/

/-- The statement `int itemsPerThread = N / threadAmount;` (C division truncates). -/
def itemsPerThread (N threadAmount : Int) : Int :=
  wrapInt (Int.tdiv N threadAmount)

/-- The statement `int lb = i * itemsPerThread;`. -/
def lb (N threadAmount i : Int) : Int :=
  wrapInt (i * itemsPerThread N threadAmount)

/-- The statement
`int ub = (i == threadAmount - 1) ? (N - 1) : (lb + itemsPerThread - 1);`. -/
def ub (N threadAmount i : Int) : Int :=
  if i = wrapInt (threadAmount - 1) then wrapInt (N - 1)
  else wrapInt (wrapInt (lb N threadAmount i + itemsPerThread N threadAmount) - 1)

/-- The bounds produced by `for (int i = 0; i < threadAmount; ++i)`, in loop order. -/
def partition (N threadAmount : Int) : List (Int × Int) :=
  (List.range threadAmount.toNat).map
    (fun (i : Nat) => (lb N threadAmount (i : Int), ub N threadAmount (i : Int)))

/-- Index `k` is visited by the loop `for (int i = lb; i <= ub; ++i)` of block `i`. -/
def inBlock (N threadAmount i k : Int) : Prop :=
  lb N threadAmount i ≤ k ∧ k ≤ ub N threadAmount i

instance (N threadAmount i k : Int) : Decidable (inBlock N threadAmount i k) := by
  unfold inBlock; infer_instance

/-- Number of indices visited by the loop of block `i`. -/
def blockLength (N threadAmount i : Int) : Int :=
  ub N threadAmount i - lb N threadAmount i + 1

/-! ## Matrix-vector kernels (`Task2/2.1/source/main.c`)

A `double` is an element of an arbitrary type `α` with `0`, `+` and `*`; no law of
arithmetic is assumed of them. An array is a map from indices to elements. -/

section Kernel

variable {α : Type} [Zero α] [Add α] [Mul α]

/-- The index expression `i * n + j`. -/
def idx (i n j : Int) : Int := wrapInt (wrapInt (i * n) + j)

/-- The loop `for (int j = 0; j < n; j++) c[i] += a[i * n + j] * b[j];`. -/
def innerLoop (a b : Int → α) (n i : Int) (c : Int → α) : Int → α :=
  (List.range n.toNat).foldl
    (fun c (j : Nat) => Function.update c i (c i + a (idx i n (j : Int)) * b (j : Int))) c

/-- Body of the loop over rows: `c[i] = 0.0;` followed by the loop over `j`. -/
def rowBody (a b : Int → α) (n i : Int) (c : Int → α) : Int → α :=
  innerLoop a b n i (Function.update c i 0)

/-- Function `matrix_vector_product`: `for (int i = 0; i < m; i++)` over the row body. -/
def matrix_vector_product (a b c : Int → α) (m n : Int) : Int → α :=
  (List.range m.toNat).foldl (fun c (i : Nat) => rowBody a b n (i : Int) c) c

/-- The indices visited by `for (int i = lo; i <= hi; i++)`, in order. -/
def loopIndices (lo hi : Int) : List Int :=
  (List.range (hi + 1 - lo).toNat).map (fun (d : Nat) => lo + (d : Int))

/-- The block of `matrix_vector_product_omp` run by thread `threadId` of a team of
`nThreads` threads (lines 19-30). -/
def matrix_vector_product_omp_thread (a b c : Int → α) (m n nThreads threadId : Int) :
    Int → α :=
  (loopIndices (lb m nThreads threadId) (ub m nThreads threadId)).foldl
    (fun c i => rowBody a b n i c) c

/-- Function `matrix_vector_product_omp`: the blocks of the team, run one after the
other in the order `order` of thread ids. -/
def matrix_vector_product_omp (a b c : Int → α) (m n nThreads : Int) (order : List Int) :
    Int → α :=
  order.foldl (fun c threadId => matrix_vector_product_omp_thread a b c m n nThreads threadId) c

/-- The sum `((0 + a[i*n+0]*b[0]) + a[i*n+1]*b[1]) + ...` of row `i`, added left to right. -/
def rowSum (a b : Int → α) (n i : Int) : α :=
  (List.range n.toNat).foldl (fun acc (j : Nat) => acc + a (i * n + (j : Int)) * b (j : Int)) 0

/-- The value the row body leaves in `c[i]`: the products of row `i`, added left to
right from `0`, with the index computed as the code computes it. -/
def rowValue (a b : Int → α) (n i : Int) : α :=
  (List.range n.toNat).foldl
    (fun acc (j : Nat) => acc + a (idx i n (j : Int)) * b (j : Int)) 0

end Kernel

/-! ## The thread pool (`Task3/task3.1/main.cpp`) -/

/-- What the callable `std::bind(f, args...)` of line 59 does when it is invoked: it
returns a value, or an exception leaves it. -/
inductive Outcome where
  | value (v : Int)
  | failure (what : String)
  deriving DecidableEq

/-- The closure `[task]() { (*task)(); }` of line 66. `fut` names the packaged task it
captures, and so the future obtained from it on line 61; `work` is what the bound
callable produces. -/
structure Task where
  fut : Nat
  work : Outcome
  deriving DecidableEq

/-- How a call ends: it returns, or an exception leaves it. -/
inductive Completion where
  | normal
  | exception
  deriving DecidableEq

/-- The call `(*task)()` of line 66, `task` being a `std::packaged_task`, given the
writes made so far to shared states of futures; it yields the writes after the call
and how the call ends. When the shared state of the task already holds a result, the
call throws `std::future_error` and writes nothing. Otherwise it invokes the bound
callable: a value returned is stored in the shared state, an exception thrown is
caught and stored in the shared state, and in both cases the call returns. -/
def packaged_task_call (futures : List (Nat × Outcome)) (t : Task) :
    List (Nat × Outcome) × Completion :=
  if t.fut ∈ futures.map Prod.fst then (futures, .exception)
  else
    match t.work with
    | .value v => (futures ++ [(t.fut, .value v)], .normal)
    | .failure what => (futures ++ [(t.fut, .failure what)], .normal)

/-- The threads that take part: workers, callers of `enqueue`, and the thread that
destroys the pool. -/
inductive Thread where
  | worker (i : Nat)
  | caller (c : Nat)
  | destructor
  deriving DecidableEq

/-- Where a worker stands in the lambda of lines 30-45. -/
inductive WorkerPc where
  /-- Line 35, before `queue_mutex` is locked. -/
  | top
  /-- Line 36, mutex held, about to evaluate the predicate of `wait(lock, pred)`,
  which runs `while (!pred()) wait(lock);`. -/
  | evalPred
  /-- Line 36, mutex held, predicate found false, about to call `wait(lock)`, which
  unlocks the mutex and blocks in one atomic step. -/
  | blockPending
  /-- Line 36, blocked on `condition`, mutex released. -/
  | blocked
  /-- Line 36, unblocked, about to lock the mutex again. -/
  | wakeup
  /-- Line 37, mutex held. -/
  | check
  /-- Line 43, mutex released, `task()` running. -/
  | run (t : Task)
  /-- The `return` of line 38 was taken. -/
  | exited
  /-- An exception left `task()` on line 43 and so the thread function, which has no
  handler: `std::terminate` was called. -/
  | terminated
  deriving DecidableEq

/-- Where a call of `enqueue` stands (lines 56-70). -/
inductive CallPc where
  /-- Lines 59-61 done, before `queue_mutex` is locked on line 63. -/
  | lockPending (t : Task)
  /-- Line 64, mutex held. -/
  | checkStop (t : Task)
  /-- Line 66, mutex held. -/
  | emplace (t : Task)
  /-- Line 68, mutex released. -/
  | notify (t : Task)
  /-- Line 69: the future was returned. -/
  | returned (t : Task)
  /-- Line 65: `std::runtime_error(what)` was thrown. -/
  | thrown (t : Task) (what : String)
  deriving DecidableEq

/-- The task a call was made with. -/
def CallPc.task : CallPc → Task
  | .lockPending t => t
  | .checkStop t => t
  | .emplace t => t
  | .notify t => t
  | .returned t => t
  | .thrown t _ => t

/-- Where the destructor stands (lines 48-53). -/
inductive DtorPc where
  /-- The destructor was not called. -/
  | notStarted
  /-- Line 49 done. -/
  | stored
  /-- Line 50 done; `workers[i]` is the next thread to join on line 52. -/
  | joining (i : Nat)
  /-- The destructor returned. -/
  | returned
  deriving DecidableEq

/-- State of a pool and of the threads that use it. The last three fields record the
history: the tasks emplaced, the tasks popped, and the writes to shared states of
futures, each in the order they happened. -/
structure ThreadPool where
  workers : List WorkerPc
  tasks : List Task
  queue_mutex : Option Thread
  stop : Bool
  calls : List CallPc
  dtor : DtorPc
  enqueued : List Task
  dequeued : List Task
  futures : List (Nat × Outcome)
  deriving DecidableEq

/-- The pool after `ThreadPool(threads)`: line 28 initialises `stop`, lines 29-45
start the workers. -/
def init (threads : Nat) : ThreadPool where
  workers := List.replicate threads .top
  tasks := []
  queue_mutex := none
  stop := false
  calls := []
  dtor := .notStarted
  enqueued := []
  dequeued := []
  futures := []

/-- The atomic steps of the threads. -/
inductive Action where
  /-- A caller enters `enqueue` and runs lines 57-61. -/
  | call (work : Outcome)
  /-- Line 63 of call `c`. -/
  | callLock (c : Nat)
  /-- Lines 64-65 of call `c`. -/
  | callCheck (c : Nat)
  /-- Lines 66-67 of call `c`. -/
  | callEmplace (c : Nat)
  /-- Lines 68-69 of call `c`; `woken` is the worker that `notify_one` unblocks. -/
  | callNotify (c : Nat) (woken : Option Nat)
  /-- Line 35 of worker `i`. -/
  | workerLock (i : Nat)
  /-- Line 36 of worker `i`: the predicate of `wait`. -/
  | workerPred (i : Nat)
  /-- Line 36 of worker `i`: unlock and block. -/
  | workerBlock (i : Nat)
  /-- Line 36 of worker `i`: lock again after being unblocked. -/
  | workerWake (i : Nat)
  /-- Lines 37-41 of worker `i`. -/
  | workerCheck (i : Nat)
  /-- Line 43 of worker `i`: the call `task()`, which runs the closure of line 66. -/
  | workerRun (i : Nat)
  /-- A spurious wakeup of worker `i`. -/
  | spurious (i : Nat)
  /-- Line 49. -/
  | dtorStore
  /-- Line 50. -/
  | dtorNotify
  /-- Line 52 for the next worker. -/
  | dtorJoin
  /-- End of the loop of lines 51-52. -/
  | dtorReturn
  deriving DecidableEq

/-- Effect of `notify_all` on one worker. -/
def wake : WorkerPc → WorkerPc
  | .blocked => .wakeup
  | pc => pc

/-- The message of the exception of line 65. -/
def stoppedMessage : String := "enqueue on stopped ThreadPool"

/-- One step: the state after thread action `a`, or `none` when `a` cannot be taken.
A thread that locks `queue_mutex` can do so only when no thread holds it; the
destructor never locks it. -/
def step? (a : Action) (s : ThreadPool) : Option ThreadPool :=
  match a with
  | .call w =>
    some { s with calls := s.calls ++ [.lockPending ⟨s.calls.length, w⟩] }
  | .callLock c =>
    match s.calls[c]? with
    | some (.lockPending t) =>
      if s.queue_mutex = none then
        some { s with calls := s.calls.set c (.checkStop t), queue_mutex := some (.caller c) }
      else none
    | _ => none
  | .callCheck c =>
    match s.calls[c]? with
    | some (.checkStop t) =>
      if s.stop then
        some { s with calls := s.calls.set c (.thrown t stoppedMessage), queue_mutex := none }
      else
        some { s with calls := s.calls.set c (.emplace t) }
    | _ => none
  | .callEmplace c =>
    match s.calls[c]? with
    | some (.emplace t) =>
      some { s with
        calls := s.calls.set c (.notify t), tasks := s.tasks ++ [t],
        enqueued := s.enqueued ++ [t], queue_mutex := none }
    | _ => none
  | .callNotify c woken =>
    match s.calls[c]? with
    | some (.notify t) =>
      match woken with
      | some i =>
        if s.workers[i]? = some .blocked then
          some { s with workers := s.workers.set i .wakeup, calls := s.calls.set c (.returned t) }
        else none
      | none =>
        if .blocked ∈ s.workers then none
        else some { s with calls := s.calls.set c (.returned t) }
    | _ => none
  | .workerLock i =>
    if s.workers[i]? = some .top ∧ s.queue_mutex = none then
      some { s with workers := s.workers.set i .evalPred, queue_mutex := some (.worker i) }
    else none
  | .workerPred i =>
    if s.workers[i]? = some .evalPred then
      if s.stop = true ∨ s.tasks ≠ [] then
        some { s with workers := s.workers.set i .check }
      else
        some { s with workers := s.workers.set i .blockPending }
    else none
  | .workerBlock i =>
    if s.workers[i]? = some .blockPending then
      some { s with workers := s.workers.set i .blocked, queue_mutex := none }
    else none
  | .workerWake i =>
    if s.workers[i]? = some .wakeup ∧ s.queue_mutex = none then
      some { s with workers := s.workers.set i .evalPred, queue_mutex := some (.worker i) }
    else none
  | .workerCheck i =>
    if s.workers[i]? = some .check then
      if s.stop = true ∧ s.tasks = [] then
        some { s with workers := s.workers.set i .exited, queue_mutex := none }
      else
        match s.tasks with
        | t :: rest =>
          some { s with
            workers := s.workers.set i (.run t), tasks := rest,
            dequeued := s.dequeued ++ [t], queue_mutex := none }
        -- `front()` of an empty queue has no defined result
        | [] => none
    else none
  | .workerRun i =>
    match s.workers[i]? with
    | some (.run t) =>
      match packaged_task_call s.futures t with
      | (futures, .normal) =>
        some { s with workers := s.workers.set i .top, futures := futures }
      | (futures, .exception) =>
        some { s with workers := s.workers.set i .terminated, futures := futures }
    | _ => none
  | .spurious i =>
    if s.workers[i]? = some .blocked then
      some { s with workers := s.workers.set i .wakeup }
    else none
  | .dtorStore =>
    if s.dtor = .notStarted then some { s with stop := true, dtor := .stored } else none
  | .dtorNotify =>
    if s.dtor = .stored then
      some { s with workers := s.workers.map wake, dtor := .joining 0 }
    else none
  | .dtorJoin =>
    match s.dtor with
    | .joining i =>
      if s.workers[i]? = some .exited then some { s with dtor := .joining (i + 1) } else none
    | _ => none
  | .dtorReturn =>
    match s.dtor with
    | .joining i =>
      if i = s.workers.length then some { s with dtor := .returned } else none
    | _ => none

/-- The state after a sequence of steps, `none` when one of them cannot be taken. -/
def run : List Action → ThreadPool → Option ThreadPool
  | [], s => some s
  | a :: as, s => (step? a s).bind (run as)

/-- State `s` is reached from a fresh pool of `threads` workers. -/
def Reachable (threads : Nat) (s : ThreadPool) : Prop :=
  ∃ as, run as (init threads) = some s

/-- The thread that takes a step in state `s`. -/
def Action.actor (s : ThreadPool) : Action → Thread
  | .call _ => .caller s.calls.length
  | .callLock c => .caller c
  | .callCheck c => .caller c
  | .callEmplace c => .caller c
  | .callNotify c _ => .caller c
  | .workerLock i => .worker i
  | .workerPred i => .worker i
  | .workerBlock i => .worker i
  | .workerWake i => .worker i
  | .workerCheck i => .worker i
  | .workerRun i => .worker i
  | .spurious i => .worker i
  | .dtorStore => .destructor
  | .dtorNotify => .destructor
  | .dtorJoin => .destructor
  | .dtorReturn => .destructor

/-- The steps whose statements read or write `stop` or `tasks`: line 64, line 66,
lines 36-40 and line 49. -/
def Action.accessesShared : Action → Bool
  | .callCheck _ => true
  | .callEmplace _ => true
  | .workerPred _ => true
  | .workerCheck _ => true
  | .dtorStore => true
  | _ => false

/-- A step other than a spurious wakeup. -/
def Action.notSpurious : Action → Bool
  | .spurious _ => false
  | _ => true

/-- Every worker of the pool took the `return` of line 38. -/
def allExited (s : ThreadPool) : Prop := ∀ pc ∈ s.workers, pc = WorkerPc.exited

instance (s : ThreadPool) : Decidable (allExited s) := by
  unfold allExited; infer_instance

/-- The worker holds `queue_mutex` at this point of its loop. -/
def WorkerPc.holdsLock : WorkerPc → Bool
  | .evalPred => true
  | .blockPending => true
  | .check => true
  | _ => false

/-- The call holds `queue_mutex` at this point of `enqueue`. -/
def CallPc.holdsLock : CallPc → Bool
  | .checkStop _ => true
  | .emplace _ => true
  | _ => false

/-- The facts that hold of every reachable state of a pool. -/
structure Inv (s : ThreadPool) : Prop where
  fifo : s.enqueued = s.dequeued ++ s.tasks
  callId : ∀ (c : Nat) (pc : CallPc), s.calls[c]? = some pc → pc.task.fut = c
  enq : ∀ t ∈ s.enqueued,
    s.calls[t.fut]? = some (.notify t) ∨ s.calls[t.fut]? = some (.returned t)
  enqNodup : (s.enqueued.map Task.fut).Nodup
  mutexW : ∀ (i : Nat) (pc : WorkerPc), s.workers[i]? = some pc → pc.holdsLock = true →
    s.queue_mutex = some (.worker i)
  mutexC : ∀ (c : Nat) (pc : CallPc), s.calls[c]? = some pc → pc.holdsLock = true →
    s.queue_mutex = some (.caller c)
  stopExit : ∀ i : Nat, s.workers[i]? = some WorkerPc.exited → s.stop = true
  noExit : ∀ (c : Nat) (t : Task) (i : Nat), s.calls[c]? = some (CallPc.emplace t) →
    s.workers[i]? ≠ some WorkerPc.exited
  checkOk : ∀ i : Nat, s.workers[i]? = some WorkerPc.check → s.stop = true ∨ s.tasks ≠ []
  drain : s.workers ≠ [] →
    (∀ (i : Nat) (pc : WorkerPc), s.workers[i]? = some pc → pc = .exited) → s.tasks = []
  deq : ∀ t ∈ s.dequeued,
    (t.fut, t.work) ∈ s.futures ∨ ∃ i : Nat, s.workers[i]? = some (WorkerPc.run t)
  fut : ∀ p ∈ s.futures, (⟨p.1, p.2⟩ : Task) ∈ s.dequeued
  futNodup : (s.futures.map Prod.fst).Nodup
  runDeq : ∀ (i : Nat) (t : Task), s.workers[i]? = some (WorkerPc.run t) →
    t ∈ s.dequeued ∧ t.fut ∉ s.futures.map Prod.fst
  runInj : ∀ (i j : Nat) (t t' : Task), s.workers[i]? = some (WorkerPc.run t) →
    s.workers[j]? = some (WorkerPc.run t') → t.fut = t'.fut → i = j

/-! ### Traces and states used as instances -/

/-- Two workers, three calls of `enqueue` that emplace in the order 1, 0, 2, and two
tasks popped. -/
def fifoTrace : List Action :=
  [.call (.value 10), .call (.value 20), .call (.value 30),
    .callLock 1, .callCheck 1, .callEmplace 1, .callLock 0, .callCheck 0,
    .callEmplace 0, .callLock 2, .callCheck 2, .callEmplace 2,
    .workerLock 1, .workerPred 1, .workerCheck 1,
    .workerLock 0, .workerPred 0, .workerCheck 0]

/-- One worker: a task is emplaced, the destructor starts while the task is queued, the
worker pops and runs the task, exits and is joined. -/
def drainTrace : List Action :=
  [.call (.value 3), .callLock 0, .callCheck 0, .callEmplace 0, .callNotify 0 none,
    .dtorStore, .dtorNotify, .workerLock 0, .workerPred 0, .workerCheck 0, .workerRun 0,
    .workerLock 0, .workerPred 0, .workerCheck 0, .dtorJoin, .dtorReturn]

/-- Three calls on a pool of two workers; the tasks are popped and run by different
workers, the second finishing first; the pool is destroyed and both workers exit. -/
def pairedTrace : List Action :=
  [.call (.value 10), .call (.value 20), .call (.failure "divide by zero"),
    .callLock 0, .callCheck 0, .callEmplace 0, .callNotify 0 none,
    .callLock 1, .callCheck 1, .callEmplace 1, .callNotify 1 none,
    .callLock 2, .callCheck 2, .callEmplace 2, .callNotify 2 none,
    .workerLock 0, .workerPred 0, .workerCheck 0,
    .workerLock 1, .workerPred 1, .workerCheck 1,
    .workerRun 1, .workerRun 0,
    .workerLock 1, .workerPred 1, .workerCheck 1, .workerRun 1,
    .dtorStore, .dtorNotify,
    .workerLock 0, .workerPred 0, .workerCheck 0,
    .workerLock 1, .workerPred 1, .workerCheck 1]

/-- Call `c`, made with task `t`, has not passed the check of line 64, or has thrown. -/
def Rejecting (c : Nat) (t : Task) (s : ThreadPool) : Prop :=
  s.stop = true ∧
  (s.calls[c]? = some (.lockPending t) ∨ s.calls[c]? = some (.checkStop t) ∨
    s.calls[c]? = some (.thrown t stoppedMessage)) ∧
  ∀ t' ∈ s.enqueued, t'.fut ≠ c

/-- One worker, a queued task, the destructor past line 49. -/
def stoppedTrace : List Action :=
  [.call (.value 3), .callLock 0, .callCheck 0, .callEmplace 0, .callNotify 0 none,
    .dtorStore]

/-- The state after `stoppedTrace`. -/
def stoppedState : ThreadPool where
  workers := [.top]
  tasks := [⟨0, .value 3⟩]
  queue_mutex := none
  stop := true
  calls := [.returned ⟨0, .value 3⟩]
  dtor := .stored
  enqueued := [⟨0, .value 3⟩]
  dequeued := []
  futures := []

/-- The state after a rejected call of `enqueue` in `stoppedState`. -/
def rejectedState : ThreadPool :=
  { stoppedState with
    calls := [.returned ⟨0, .value 3⟩, .thrown ⟨1, .value 7⟩ "enqueue on stopped ThreadPool"] }

/-- Two tasks emplaced, the first raising `divide by zero`; worker 0 popped the first
and worker 1 the second. -/
def failTrace : List Action :=
  [.call (.failure "divide by zero"), .call (.value 5),
    .callLock 0, .callCheck 0, .callEmplace 0, .callNotify 0 none,
    .callLock 1, .callCheck 1, .callEmplace 1, .callNotify 1 none,
    .workerLock 0, .workerPred 0, .workerCheck 0,
    .workerLock 1, .workerPred 1, .workerCheck 1]

/-- The state after `failTrace`. -/
def failState : ThreadPool where
  workers := [.run ⟨0, .failure "divide by zero"⟩, .run ⟨1, .value 5⟩]
  tasks := []
  queue_mutex := none
  stop := false
  calls := [.returned ⟨0, .failure "divide by zero"⟩, .returned ⟨1, .value 5⟩]
  dtor := .notStarted
  enqueued := [⟨0, .failure "divide by zero"⟩, ⟨1, .value 5⟩]
  dequeued := [⟨0, .failure "divide by zero"⟩, ⟨1, .value 5⟩]
  futures := []

/-- The state after worker 0 ran the failing task and worker 1 the other one. -/
def failDoneState : ThreadPool :=
  { failState with
    workers := [.top, .top]
    futures := [(0, .failure "divide by zero"), (1, .value 5)] }

/-- One worker; it finds the predicate of `wait` false, then lines 49 and 50 of the
destructor run, then the worker blocks. -/
def lostWakeupTrace : List Action :=
  [.workerLock 0, .workerPred 0, .dtorStore, .dtorNotify, .workerBlock 0]

/-- The state after `lostWakeupTrace`. -/
def lostWakeupState : ThreadPool where
  workers := [.blocked]
  tasks := []
  queue_mutex := none
  stop := true
  calls := []
  dtor := .joining 0
  enqueued := []
  dequeued := []
  futures := []

/-- The worker is blocked, the destructor is joining it, and no call is at a place
from which it would reach `notify_one`. -/
def Stuck (s : ThreadPool) : Prop :=
  s.workers = [.blocked] ∧ s.dtor = .joining 0 ∧ s.stop = true ∧
  ∀ (c : Nat) (pc : CallPc), s.calls[c]? = some pc →
    (∀ t, pc ≠ .emplace t) ∧ (∀ t, pc ≠ .notify t)

/-! ## Theorems -/

/-! ### The partitioner without overflow -/

theorem wrapInt_of_range {x : Int} (h1 : -2147483648 ≤ x) (h2 : x ≤ 2147483647) :
    wrapInt x = x := by
  unfold wrapInt
  rw [Int.emod_eq_of_lt (by omega) (by omega)]
  omega

theorem itemsPerThread_eq {N T : Int} (hN : 0 ≤ N) (hN2 : N ≤ INT_MAX) (hT : 1 ≤ T) :
    itemsPerThread N T = N / T := by
  unfold itemsPerThread INT_MAX at *
  rw [Int.tdiv_eq_ediv hN (by omega)]
  have h0 : 0 ≤ N / T := Int.ediv_nonneg hN (by omega)
  have h1 : N / T ≤ N := Int.ediv_le_self T hN
  exact wrapInt_of_range (by omega) (by omega)

theorem quot_facts {N T : Int} (hN : 0 ≤ N) (hT : 1 ≤ T) :
    0 ≤ N / T ∧ T * (N / T) ≤ N ∧ N < T * (N / T) + T ∧ N % T = N - T * (N / T) := by
  have h := Int.ediv_add_emod N T
  have h1 := Int.emod_nonneg N (show T ≠ 0 by omega)
  have h2 := Int.emod_lt_of_pos N (show 0 < T by omega)
  have h0 : 0 ≤ N / T := Int.ediv_nonneg hN (by omega)
  refine ⟨h0, by omega, by omega, by omega⟩

theorem mul_quot_le {N T i : Int} (hN : 0 ≤ N) (hT : 1 ≤ T) (hi0 : 0 ≤ i) (hi : i < T) :
    0 ≤ i * (N / T) ∧ i * (N / T) + N / T ≤ N := by
  obtain ⟨h0, h1, _, _⟩ := quot_facts hN hT
  constructor
  · exact mul_nonneg hi0 h0
  · have : (i + 1) * (N / T) ≤ T * (N / T) :=
      mul_le_mul_of_nonneg_right (by omega) h0
    have e : (i + 1) * (N / T) = i * (N / T) + N / T := by ring
    omega

theorem lb_eq {N T i : Int} (hN : 0 ≤ N) (hN2 : N ≤ INT_MAX) (hT : 1 ≤ T)
    (hi0 : 0 ≤ i) (hi : i < T) : lb N T i = i * (N / T) := by
  unfold lb
  rw [itemsPerThread_eq hN hN2 hT]
  obtain ⟨h0, h1⟩ := mul_quot_le hN hT hi0 hi
  obtain ⟨hq, _, _, _⟩ := quot_facts hN hT
  unfold INT_MAX at hN2
  exact wrapInt_of_range (by omega) (by omega)

theorem ub_eq {N T i : Int} (hN : 0 ≤ N) (hN2 : N ≤ INT_MAX) (hT : 1 ≤ T)
    (hT2 : T ≤ INT_MAX) (hi0 : 0 ≤ i) (hi : i < T) :
    ub N T i = if i = T - 1 then N - 1 else i * (N / T) + N / T - 1 := by
  unfold ub
  rw [lb_eq hN hN2 hT hi0 hi, itemsPerThread_eq hN hN2 hT]
  obtain ⟨h0, h1⟩ := mul_quot_le hN hT hi0 hi
  obtain ⟨hq, _, _, _⟩ := quot_facts hN hT
  unfold INT_MAX at hN2 hT2
  rw [wrapInt_of_range (x := T - 1) (by omega) (by omega),
    wrapInt_of_range (x := N - 1) (by omega) (by omega),
    wrapInt_of_range (x := i * (N / T) + N / T) (by omega) (by omega),
    wrapInt_of_range (x := i * (N / T) + N / T - 1) (by omega) (by omega)]

/-- Membership in block `i`, by cases on whether `i` is the last block. -/
theorem inBlock_iff {N T i k : Int} (hN : 0 ≤ N) (hN2 : N ≤ INT_MAX) (hT : 1 ≤ T)
    (hT2 : T ≤ INT_MAX) (hi0 : 0 ≤ i) (hi : i < T) :
    inBlock N T i k ↔
      i * (N / T) ≤ k ∧ k ≤ (if i = T - 1 then N - 1 else i * (N / T) + N / T - 1) := by
  unfold inBlock
  rw [lb_eq hN hN2 hT hi0 hi, ub_eq hN hN2 hT hT2 hi0 hi]

/-- Two blocks that share an index are the same block. -/
theorem inBlock_inj {N T i j k : Int} (hN : 0 ≤ N) (hN2 : N ≤ INT_MAX) (hT : 1 ≤ T)
    (hT2 : T ≤ INT_MAX) (hi0 : 0 ≤ i) (hi : i < T) (hj0 : 0 ≤ j) (hj : j < T)
    (h1 : inBlock N T i k) (h2 : inBlock N T j k) : i = j := by
  rw [inBlock_iff hN hN2 hT hT2 hi0 hi] at h1
  rw [inBlock_iff hN hN2 hT hT2 hj0 hj] at h2
  obtain ⟨hq, _, _, _⟩ := quot_facts hN hT
  by_contra hne
  rcases lt_or_gt_of_ne hne with hlt | hlt
  · have hi' : ¬ i = T - 1 := by omega
    rw [if_neg hi'] at h1
    have : (i + 1) * (N / T) ≤ j * (N / T) := mul_le_mul_of_nonneg_right (by omega) hq
    have e : (i + 1) * (N / T) = i * (N / T) + N / T := by ring
    omega
  · have hj' : ¬ j = T - 1 := by omega
    rw [if_neg hj'] at h2
    have : (j + 1) * (N / T) ≤ i * (N / T) := mul_le_mul_of_nonneg_right (by omega) hq
    have e : (j + 1) * (N / T) = j * (N / T) + N / T := by ring
    omega

/-- Every index of `[0, N)` lies in some block. -/
theorem inBlock_exists {N T k : Int} (hN : 0 ≤ N) (hN2 : N ≤ INT_MAX) (hT : 1 ≤ T)
    (hT2 : T ≤ INT_MAX) (hk0 : 0 ≤ k) (hk : k < N) :
    ∃ i, 0 ≤ i ∧ i < T ∧ inBlock N T i k := by
  obtain ⟨hq, hq1, hq2, _⟩ := quot_facts hN hT
  by_cases hlast : (T - 1) * (N / T) ≤ k
  · refine ⟨T - 1, by omega, by omega, ?_⟩
    rw [inBlock_iff hN hN2 hT hT2 (by omega) (by omega), if_pos rfl]
    omega
  · have hlast' : k < (T - 1) * (N / T) := by omega
    have hqpos : 0 < N / T := by
      rcases hq.lt_or_eq with h | h
      · exact h
      · rw [← h] at hlast'; simp at hlast'; omega
    have hlt : k / (N / T) < T - 1 := Int.ediv_lt_of_lt_mul hqpos hlast'
    have hge : 0 ≤ k / (N / T) := Int.ediv_nonneg hk0 hq
    have hm1 : k / (N / T) * (N / T) ≤ k := Int.ediv_mul_le k (by omega)
    have hm2 : k < (N / T) * (k / (N / T)) + N / T := Int.lt_mul_ediv_self_add hqpos
    refine ⟨k / (N / T), hge, by omega, ?_⟩
    rw [inBlock_iff hN hN2 hT hT2 hge (by omega), if_neg (by omega)]
    have e : (N / T) * (k / (N / T)) = k / (N / T) * (N / T) := by ring
    omega

/-- A block only holds indices of `[0, N)`. -/
theorem inBlock_range {N T i k : Int} (hN : 0 ≤ N) (hN2 : N ≤ INT_MAX) (hT : 1 ≤ T)
    (hT2 : T ≤ INT_MAX) (hi0 : 0 ≤ i) (hi : i < T) (h : inBlock N T i k) :
    0 ≤ k ∧ k < N := by
  rw [inBlock_iff hN hN2 hT hT2 hi0 hi] at h
  obtain ⟨h0, h1⟩ := mul_quot_le hN hT hi0 hi
  split_ifs at h <;> omega

/-! ### Claims on the partitioner -/

theorem partition_getElem? (N T : Int) (i : Nat) (hi : (i : Int) < T) :
    (partition N T)[i]? = some (lb N T (i : Int), ub N T (i : Int)) := by
  unfold partition
  rw [List.getElem?_map, List.getElem?_range (by omega)]
  rfl

theorem blockLength_inner {N T i : Int} (hN : 0 ≤ N) (hN2 : N ≤ INT_MAX) (hT : 1 ≤ T)
    (hT2 : T ≤ INT_MAX) (hi0 : 0 ≤ i) (hi : i < T - 1) : blockLength N T i = N / T := by
  unfold blockLength
  rw [lb_eq hN hN2 hT hi0 (by omega), ub_eq hN hN2 hT hT2 hi0 (by omega),
    if_neg (by omega)]
  omega

theorem blockLength_last {N T : Int} (hN : 0 ≤ N) (hN2 : N ≤ INT_MAX) (hT : 1 ≤ T)
    (hT2 : T ≤ INT_MAX) : blockLength N T (T - 1) = N / T + N % T := by
  unfold blockLength
  rw [lb_eq hN hN2 hT (by omega) (by omega), ub_eq hN hN2 hT hT2 (by omega) (by omega),
    if_pos rfl]
  obtain ⟨_, _, _, hmod⟩ := quot_facts hN hT
  rw [hmod]
  ring

/-- C1: for `N > 0` and `1 ≤ T ≤ N` within the range of `int`, the partitioner yields
exactly `T` ranges `[lb i, ub i]`, `i = 0..T-1`; two different ranges share no index;
every index of `[0, N)` lies in exactly one range and a range holds no other index;
each of the first `T - 1` ranges has length `floor(N / T)`. -/
theorem partition_exact_cover (N T : Int) (hN : 0 < N) (hN2 : N ≤ INT_MAX)
    (hT : 1 ≤ T) (hTN : T ≤ N) :
    (partition N T).length = T.toNat ∧
    (∀ i : Nat, (i : Int) < T →
      (partition N T)[i]? = some (lb N T (i : Int), ub N T (i : Int))) ∧
    (∀ i j k, 0 ≤ i → i < T → 0 ≤ j → j < T → i ≠ j →
      ¬ (inBlock N T i k ∧ inBlock N T j k)) ∧
    (∀ k, 0 ≤ k → k < N → ∃! i, (0 ≤ i ∧ i < T) ∧ inBlock N T i k) ∧
    (∀ i k, 0 ≤ i → i < T → inBlock N T i k → 0 ≤ k ∧ k < N) ∧
    (∀ i, 0 ≤ i → i < T - 1 → blockLength N T i = N / T) := by
  have hN0 : 0 ≤ N := by omega
  have hT2 : T ≤ INT_MAX := by omega
  refine ⟨by simp [partition], fun i hi => partition_getElem? N T i hi, ?_, ?_, ?_, ?_⟩
  · rintro i j k hi0 hi hj0 hj hne ⟨h1, h2⟩
    exact hne (inBlock_inj hN0 hN2 hT hT2 hi0 hi hj0 hj h1 h2)
  · intro k hk0 hk
    obtain ⟨i, hi0, hi, hik⟩ := inBlock_exists hN0 hN2 hT hT2 hk0 hk
    refine ⟨i, ⟨⟨hi0, hi⟩, hik⟩, ?_⟩
    rintro j ⟨⟨hj0, hj⟩, hjk⟩
    exact inBlock_inj hN0 hN2 hT hT2 hj0 hj hi0 hi hjk hik
  · intro i k hi0 hi h
    exact inBlock_range hN0 hN2 hT hT2 hi0 hi h
  · intro i hi0 hi
    exact blockLength_inner hN0 hN2 hT hT2 hi0 hi

/-- Instance of C1 at `N = 10`, `T = 3`: the ranges are `[0,2]`, `[3,5]`, `[6,9]`. -/
theorem partition_exact_cover_witness :
    partition 10 3 = [(0, 2), (3, 5), (6, 9)] ∧
    (partition 10 3).length = (3 : Int).toNat ∧
    (∀ k : Int, 0 ≤ k → k < 10 → ∃! i, (0 ≤ i ∧ i < 3) ∧ inBlock 10 3 i k) ∧
    (∀ i : Int, 0 ≤ i → i < 3 - 1 → blockLength 10 3 i = 10 / 3) :=
  have h := partition_exact_cover 10 3 (by decide) (by decide) (by decide) (by decide)
  ⟨by decide, h.1, h.2.2.2.1, h.2.2.2.2.2⟩

/-- C8: for `N ≥ 0` and `T ≥ 1` within the range of `int` (also `T > N`, also `T` not
dividing `N`) the ranges are contiguous and gap-free: `lb 0 = 0`,
`lb (i+1) = ub i + 1` for `i < T - 1`, `ub (T-1) = N - 1`; each of the first `T - 1`
ranges has length `floor(N / T)`, the last has length `floor(N / T) + N mod T`, and when
`N mod T ≠ 0` and `T ≥ 2` every earlier range is strictly shorter than the last. -/
theorem partition_contiguous (N T : Int) (hN : 0 ≤ N) (hN2 : N ≤ INT_MAX)
    (hT : 1 ≤ T) (hT2 : T ≤ INT_MAX) :
    lb N T 0 = 0 ∧
    (∀ i, 0 ≤ i → i < T - 1 → lb N T (i + 1) = ub N T i + 1) ∧
    ub N T (T - 1) = N - 1 ∧
    (∀ i, 0 ≤ i → i < T - 1 → blockLength N T i = N / T) ∧
    blockLength N T (T - 1) = N / T + N % T ∧
    (N % T ≠ 0 → 2 ≤ T →
      ∀ i, 0 ≤ i → i < T - 1 → blockLength N T i < blockLength N T (T - 1)) := by
  refine ⟨?_, ?_, ?_, ?_, ?_, ?_⟩
  · rw [lb_eq hN hN2 hT le_rfl (by omega)]; simp
  · intro i hi0 hi
    rw [lb_eq hN hN2 hT (by omega) (by omega), ub_eq hN hN2 hT hT2 hi0 (by omega),
      if_neg (by omega)]
    ring
  · rw [ub_eq hN hN2 hT hT2 (by omega) (by omega), if_pos rfl]
  · intro i hi0 hi
    exact blockLength_inner hN hN2 hT hT2 hi0 hi
  · exact blockLength_last hN hN2 hT hT2
  · intro hmod _ i hi0 hi
    rw [blockLength_inner hN hN2 hT hT2 hi0 hi, blockLength_last hN hN2 hT hT2]
    have := Int.emod_nonneg N (show T ≠ 0 by omega)
    omega

/-- Instance of C8 at `N = 3`, `T = 5`, more threads than items: four empty ranges
and `[0, 2]`. -/
theorem partition_contiguous_witness :
    partition 3 5 = [(0, -1), (0, -1), (0, -1), (0, -1), (0, 2)] ∧
    lb 3 5 0 = 0 ∧
    (∀ i : Int, 0 ≤ i → i < 5 - 1 → lb 3 5 (i + 1) = ub 3 5 i + 1) ∧
    ub 3 5 (5 - 1) = 3 - 1 ∧
    blockLength 3 5 (5 - 1) = 3 / 5 + 3 % 5 :=
  have h := partition_contiguous 3 5 (by decide) (by decide) (by decide) (by decide)
  ⟨by decide, h.1, h.2.1, h.2.2.1, h.2.2.2.2.1⟩

/-! ### The matrix-vector kernels -/

theorem foldl_update_row {α : Type} [Add α] [Mul α] (a b : Int → α) (n i : Int) (js : List Nat) (c : Int → α) :
    js.foldl (fun c (j : Nat) =>
        Function.update c i (c i + a (idx i n (j : Int)) * b (j : Int))) c =
      Function.update c i
        (js.foldl (fun acc (j : Nat) => acc + a (idx i n (j : Int)) * b (j : Int)) (c i)) := by
  induction js generalizing c with
  | nil => simp
  | cons j js ih =>
    simp only [List.foldl_cons]
    rw [ih]
    simp

section KernelProofs

variable {α : Type} [Zero α] [Add α] [Mul α]

theorem rowBody_eq (a b : Int → α) (n i : Int) (c : Int → α) :
    rowBody a b n i c = Function.update c i (rowValue a b n i) := by
  unfold rowBody innerLoop rowValue
  rw [foldl_update_row]
  simp

theorem foldl_rowBody_apply (a b : Int → α) (n : Int) (is : List Int) (c : Int → α)
    (k : Int) :
    is.foldl (fun c i => rowBody a b n i c) c k =
      if k ∈ is then rowValue a b n k else c k := by
  induction is generalizing c with
  | nil => simp
  | cons i is ih =>
    simp only [List.foldl_cons, List.mem_cons]
    rw [ih, rowBody_eq]
    by_cases h1 : k ∈ is
    · simp [h1]
    · by_cases h2 : k = i
      · subst h2; simp [h1]
      · simp [h1, h2]

theorem mem_loopIndices (lo hi k : Int) : k ∈ loopIndices lo hi ↔ lo ≤ k ∧ k ≤ hi := by
  unfold loopIndices
  simp only [List.mem_map, List.mem_range]
  constructor
  · rintro ⟨d, hd, rfl⟩
    omega
  · rintro ⟨h1, h2⟩
    exact ⟨(k - lo).toNat, by omega, by omega⟩

theorem omp_thread_apply (a b c : Int → α) (m n nThreads threadId k : Int) :
    matrix_vector_product_omp_thread a b c m n nThreads threadId k =
      if inBlock m nThreads threadId k then rowValue a b n k else c k := by
  unfold matrix_vector_product_omp_thread
  rw [foldl_rowBody_apply]
  simp only [mem_loopIndices, inBlock]

theorem omp_apply (a b : Int → α) (m n nThreads : Int) (order : List Int) (c : Int → α)
    (k : Int) :
    matrix_vector_product_omp a b c m n nThreads order k =
      if ∃ t ∈ order, inBlock m nThreads t k then rowValue a b n k else c k := by
  unfold matrix_vector_product_omp
  induction order generalizing c with
  | nil => simp
  | cons t ts ih =>
    simp only [List.foldl_cons]
    rw [ih, omp_thread_apply]
    by_cases h1 : ∃ t' ∈ ts, inBlock m nThreads t' k
    · have h2 : ∃ t' ∈ t :: ts, inBlock m nThreads t' k := by
        obtain ⟨t', ht', h⟩ := h1
        exact ⟨t', List.mem_cons_of_mem _ ht', h⟩
      rw [if_pos h1, if_pos h2]
    · rw [if_neg h1]
      by_cases h3 : inBlock m nThreads t k
      · rw [if_pos h3, if_pos ⟨t, List.mem_cons_self _ _, h3⟩]
      · rw [if_neg h3, if_neg]
        rintro ⟨t', ht', h⟩
        rcases List.mem_cons.1 ht' with rfl | ht'
        · exact h3 h
        · exact h1 ⟨t', ht', h⟩

theorem serial_apply (a b c : Int → α) (m n k : Int) :
    matrix_vector_product a b c m n k =
      if 0 ≤ k ∧ k < m then rowValue a b n k else c k := by
  unfold matrix_vector_product
  have h := foldl_rowBody_apply a b n ((List.range m.toNat).map (fun (i : Nat) => (i : Int))) c k
  rw [List.foldl_map] at h
  rw [h]
  have e : (k ∈ (List.range m.toNat).map (fun (i : Nat) => (i : Int))) ↔ (0 ≤ k ∧ k < m) := by
    simp only [List.mem_map, List.mem_range]
    constructor
    · rintro ⟨d, hd, rfl⟩
      omega
    · rintro ⟨h1, h2⟩
      exact ⟨k.toNat, by omega, by omega⟩
  simp only [e]

theorem mem_threadIds (nThreads t : Int) :
    t ∈ (List.range nThreads.toNat).map (fun (i : Nat) => (i : Int)) ↔
      0 ≤ t ∧ t < nThreads := by
  simp only [List.mem_map, List.mem_range]
  constructor
  · rintro ⟨d, hd, rfl⟩
    omega
  · rintro ⟨h1, h2⟩
    exact ⟨t.toNat, by omega, by omega⟩

theorem idx_eq {m n i : Int} {j : Nat} (hmn : m * n ≤ INT_MAX) (hn : 0 ≤ n)
    (hi0 : 0 ≤ i) (hi : i < m) (hj : (j : Int) < n) : idx i n (j : Int) = i * n + j := by
  unfold idx
  have h1 : 0 ≤ i * n := mul_nonneg hi0 hn
  have h2 : (i + 1) * n ≤ m * n := mul_le_mul_of_nonneg_right (by omega) hn
  have e : (i + 1) * n = i * n + n := by ring
  unfold INT_MAX at hmn
  rw [wrapInt_of_range (x := i * n) (by omega) (by omega)]
  exact wrapInt_of_range (by omega) (by omega)

theorem foldl_congr_mem {β γ : Type} (f g : β → γ → β) (l : List γ) (x : β)
    (h : ∀ y ∈ l, ∀ acc, f acc y = g acc y) : l.foldl f x = l.foldl g x := by
  induction l generalizing x with
  | nil => rfl
  | cons y ys ih =>
    simp only [List.foldl_cons]
    rw [h y (List.mem_cons_self _ _), ih]
    intro z hz acc
    exact h z (List.mem_cons_of_mem _ hz) acc

theorem rowValue_eq_rowSum (a b : Int → α) {m n i : Int} (hmn : m * n ≤ INT_MAX)
    (hn : 0 ≤ n) (hi0 : 0 ≤ i) (hi : i < m) : rowValue a b n i = rowSum a b n i := by
  unfold rowValue rowSum
  apply foldl_congr_mem
  intro j hj acc
  rw [List.mem_range] at hj
  rw [idx_eq hmn hn hi0 hi (by omega)]

/-- C10: for `m ≥ 1`, `n ≥ 0` and a team of `nThreads ≥ 1` threads (within the range
of `int`), any inputs `a`, `b` and any initial `c`, running the blocks of
`matrix_vector_product_omp` for the thread ids `0..nThreads-1` in any order gives the
same `c` as `matrix_vector_product`; every `c[i]`, `0 ≤ i < m`, is written by exactly
one thread; it ends as the left-to-right sum over `j` of `a[i*n+j] * b[j]` from `0`
(the index `i*n+j` being an `int`, for `m * n` within its range); and no other element
of `c` changes. -/
theorem omp_refines_serial (a b c : Int → α) (m n nThreads : Int) (order : List Int)
    (hm : 1 ≤ m) (hm2 : m ≤ INT_MAX) (hn : 0 ≤ n) (hT : 1 ≤ nThreads)
    (hT2 : nThreads ≤ INT_MAX)
    (horder : order.Perm ((List.range nThreads.toNat).map (fun (t : Nat) => (t : Int)))) :
    matrix_vector_product_omp a b c m n nThreads order = matrix_vector_product a b c m n ∧
    (∀ i, 0 ≤ i → i < m →
      ∃! t, t ∈ order ∧ i ∈ loopIndices (lb m nThreads t) (ub m nThreads t)) ∧
    (m * n ≤ INT_MAX → ∀ i, 0 ≤ i → i < m →
      matrix_vector_product_omp a b c m n nThreads order i = rowSum a b n i) ∧
    (∀ i, ¬ (0 ≤ i ∧ i < m) →
      matrix_vector_product_omp a b c m n nThreads order i = c i) := by
  have hm0 : 0 ≤ m := by omega
  have hmem : ∀ t, t ∈ order ↔ 0 ≤ t ∧ t < nThreads := fun t => by
    rw [horder.mem_iff, mem_threadIds]
  have hcover : ∀ k, (∃ t ∈ order, inBlock m nThreads t k) ↔ (0 ≤ k ∧ k < m) := by
    intro k
    constructor
    · rintro ⟨t, ht, h⟩
      rw [hmem] at ht
      exact inBlock_range hm0 hm2 hT hT2 ht.1 ht.2 h
    · rintro ⟨h1, h2⟩
      obtain ⟨t, ht0, ht, h⟩ := inBlock_exists hm0 hm2 hT hT2 h1 h2
      exact ⟨t, (hmem t).2 ⟨ht0, ht⟩, h⟩
  have happly : ∀ k, matrix_vector_product_omp a b c m n nThreads order k =
      if 0 ≤ k ∧ k < m then rowValue a b n k else c k := by
    intro k
    rw [omp_apply]
    simp only [hcover]
  refine ⟨?_, ?_, ?_, ?_⟩
  · funext k
    rw [happly, serial_apply]
  · intro i hi0 hi
    obtain ⟨t, ht0, ht, h⟩ := inBlock_exists hm0 hm2 hT hT2 hi0 hi
    refine ⟨t, ⟨(hmem t).2 ⟨ht0, ht⟩, (mem_loopIndices _ _ _).2 h⟩, ?_⟩
    rintro t' ⟨ht', h'⟩
    rw [hmem] at ht'
    exact inBlock_inj hm0 hm2 hT hT2 ht'.1 ht'.2 ht0 ht ((mem_loopIndices _ _ _).1 h') h
  · intro hmn i hi0 hi
    rw [happly, if_pos ⟨hi0, hi⟩]
    exact rowValue_eq_rowSum a b hmn hn hi0 hi
  · intro i hi
    rw [happly, if_neg hi]

end KernelProofs

/-- Instance of C10: a 5 by 3 matrix, a team of 2 threads, thread 1 running before
thread 0, integer entries. -/
theorem omp_refines_serial_witness :
    matrix_vector_product_omp (fun i => i + 1) (fun j => j + 2) (fun _ => (99 : Int)) 5 3 2 [1, 0]
        = matrix_vector_product (fun i => i + 1) (fun j => j + 2) (fun _ => (99 : Int)) 5 3 ∧
    (∀ i : Int, 0 ≤ i → i < 5 →
      ∃! t, t ∈ [(1 : Int), 0] ∧ i ∈ loopIndices (lb 5 2 t) (ub 5 2 t)) ∧
    matrix_vector_product_omp (fun i => i + 1) (fun j => j + 2) (fun _ => (99 : Int)) 5 3 2 [1, 0] 4
        = 128 :=
  have h := omp_refines_serial (fun i => i + 1) (fun j => j + 2) (fun _ => (99 : Int)) 5 3 2
    [1, 0] (by decide) (by decide) (by decide) (by decide) (by decide) (by decide)
  ⟨h.1, h.2.1, by rw [h.2.2.1 (by decide) 4 (by decide) (by decide)]; decide⟩

/-! ### The steps of the pool, case by case -/

theorem getElem?_set_some {β : Type} {l : List β} {i j : Nat} {x y : β} :
    (l.set i x)[j]? = some y ↔ (i = j ∧ i < l.length ∧ x = y) ∨ (i ≠ j ∧ l[j]? = some y) := by
  rw [List.getElem?_set]
  by_cases h : i = j
  · by_cases h2 : i < l.length <;> simp [h, h2]
  · simp [h]

/-- A packaged task whose shared state holds no result stores what its callable does,
value or exception, and returns. -/
theorem packaged_task_call_fresh {futures : List (Nat × Outcome)} {t : Task}
    (h : t.fut ∉ futures.map Prod.fst) :
    packaged_task_call futures t = (futures ++ [(t.fut, t.work)], .normal) := by
  unfold packaged_task_call
  rw [if_neg h]
  cases hw : t.work <;> rfl

/-- A packaged task whose shared state holds a result throws when it is called again. -/
theorem packaged_task_call_written {futures : List (Nat × Outcome)} {t : Task}
    (h : t.fut ∈ futures.map Prod.fst) :
    packaged_task_call futures t = (futures, .exception) := by
  unfold packaged_task_call
  rw [if_pos h]

/-- The two results of line 43: the call returns, or an exception leaves it. -/
theorem workerRun_cases {s s' : ThreadPool} {i : Nat}
    (h : step? (.workerRun i) s = some s') :
    ∃ t, s.workers[i]? = some (.run t) ∧
      ((t.fut ∉ s.futures.map Prod.fst ∧ s' = { s with
          workers := s.workers.set i .top, futures := s.futures ++ [(t.fut, t.work)] }) ∨
        (t.fut ∈ s.futures.map Prod.fst ∧
          s' = { s with workers := s.workers.set i .terminated })) := by
  simp only [step?] at h
  cases hw : s.workers[i]? with
  | none => rw [hw] at h; cases h
  | some pc =>
    rw [hw] at h
    cases pc with
    | run t =>
      refine ⟨t, rfl, ?_⟩
      by_cases hm : t.fut ∈ s.futures.map Prod.fst
      · simp only [packaged_task_call_written hm] at h
        cases h
        exact Or.inr ⟨hm, rfl⟩
      · simp only [packaged_task_call_fresh hm] at h
        cases h
        exact Or.inl ⟨hm, rfl⟩
    | _ => cases h

/-- Case analysis of a step: a property holds of the state after a step as soon as it
holds of each of the states the statements of the code can produce. -/
theorem step_elim {motive : ThreadPool → Prop} {a : Action} {s s' : ThreadPool}
    (h : step? a s = some s')
    (call : ∀ w, motive { s with calls := s.calls ++ [.lockPending ⟨s.calls.length, w⟩] })
    (callLock : ∀ c t, s.calls[c]? = some (.lockPending t) → s.queue_mutex = none →
      motive { s with calls := s.calls.set c (.checkStop t), queue_mutex := some (.caller c) })
    (callThrow : ∀ c t, s.calls[c]? = some (.checkStop t) → s.stop = true →
      motive { s with calls := s.calls.set c (.thrown t stoppedMessage), queue_mutex := none })
    (callPass : ∀ c t, s.calls[c]? = some (.checkStop t) → s.stop = false →
      motive { s with calls := s.calls.set c (.emplace t) })
    (callEmplace : ∀ c t, s.calls[c]? = some (.emplace t) →
      motive { s with
        calls := s.calls.set c (.notify t), tasks := s.tasks ++ [t],
        enqueued := s.enqueued ++ [t], queue_mutex := none })
    (callNotify : ∀ c t i, s.calls[c]? = some (.notify t) → s.workers[i]? = some .blocked →
      motive { s with workers := s.workers.set i .wakeup, calls := s.calls.set c (.returned t) })
    (callNotifyNone : ∀ c t, s.calls[c]? = some (.notify t) → .blocked ∉ s.workers →
      motive { s with calls := s.calls.set c (.returned t) })
    (workerLock : ∀ i, (s.workers[i]? = some .top ∨ s.workers[i]? = some .wakeup) →
      s.queue_mutex = none →
      motive { s with workers := s.workers.set i .evalPred, queue_mutex := some (.worker i) })
    (workerPredTrue : ∀ i, s.workers[i]? = some .evalPred → (s.stop = true ∨ s.tasks ≠ []) →
      motive { s with workers := s.workers.set i .check })
    (workerPredFalse : ∀ i, s.workers[i]? = some .evalPred →
      ¬ (s.stop = true ∨ s.tasks ≠ []) →
      motive { s with workers := s.workers.set i .blockPending })
    (workerBlock : ∀ i, s.workers[i]? = some .blockPending →
      motive { s with workers := s.workers.set i .blocked, queue_mutex := none })
    (workerExit : ∀ i, s.workers[i]? = some .check → s.stop = true → s.tasks = [] →
      motive { s with workers := s.workers.set i .exited, queue_mutex := none })
    (workerPop : ∀ i t rest, s.workers[i]? = some .check → s.tasks = t :: rest →
      motive { s with
        workers := s.workers.set i (.run t), tasks := rest,
        dequeued := s.dequeued ++ [t], queue_mutex := none })
    (workerRun : ∀ (i : Nat) (t : Task), s.workers[i]? = some (.run t) →
      t.fut ∉ s.futures.map Prod.fst →
      motive { s with
        workers := s.workers.set i .top, futures := s.futures ++ [(t.fut, t.work)] })
    (workerCrash : ∀ (i : Nat) (t : Task), s.workers[i]? = some (.run t) →
      t.fut ∈ s.futures.map Prod.fst →
      motive { s with workers := s.workers.set i .terminated })
    (spurious : ∀ i, s.workers[i]? = some .blocked →
      motive { s with workers := s.workers.set i .wakeup })
    (dtorStore : s.dtor = .notStarted → motive { s with stop := true, dtor := .stored })
    (dtorNotify : s.dtor = .stored →
      motive { s with workers := s.workers.map wake, dtor := .joining 0 })
    (dtorMove : ∀ d, motive { s with dtor := d }) :
    motive s' := by
  have hrun : ∀ i, step? (.workerRun i) s = some s' → motive s' := by
    intro i hi
    obtain ⟨t, ht, ⟨hm, rfl⟩ | ⟨hm, rfl⟩⟩ := workerRun_cases hi
    · exact workerRun i t ht hm
    · exact workerCrash i t ht hm
  cases a
  case workerRun i => exact hrun i h
  all_goals simp only [step?] at h
  case call w =>
    cases h; exact call w
  case callLock c =>
    split at h
    · split at h
      · cases h; exact callLock c _ ‹_› ‹_›
      · cases h
    · cases h
  case callCheck c =>
    split at h
    · split at h
      · cases h; exact callThrow c _ ‹_› ‹_›
      · cases h; exact callPass c _ ‹_› (by simpa using ‹¬ s.stop = true›)
    · cases h
  case callEmplace c =>
    split at h
    · cases h; exact callEmplace c _ ‹_›
    · cases h
  case callNotify c woken =>
    split at h
    · split at h
      · split at h
        · cases h; exact callNotify c _ _ ‹_› ‹_›
        · cases h
      · split at h
        · cases h
        · cases h; exact callNotifyNone c _ ‹_› ‹_›
    · cases h
  case workerLock i =>
    split at h
    · cases h; exact workerLock i (Or.inl (And.left ‹_›)) (And.right ‹_›)
    · cases h
  case workerPred i =>
    split at h
    · split at h
      · cases h; exact workerPredTrue i ‹_› ‹_›
      · cases h; exact workerPredFalse i ‹_› ‹_›
    · cases h
  case workerBlock i =>
    split at h
    · cases h; exact workerBlock i ‹_›
    · cases h
  case workerWake i =>
    split at h
    · cases h; exact workerLock i (Or.inr (And.left ‹_›)) (And.right ‹_›)
    · cases h
  case workerCheck i =>
    split at h
    · split at h
      · cases h; exact workerExit i ‹_› (And.left ‹_›) (And.right ‹_›)
      · split at h
        · cases h; exact workerPop i _ _ ‹_› ‹_›
        · cases h
    · cases h
  case spurious i =>
    split at h
    · cases h; exact spurious i ‹_›
    · cases h
  case dtorStore =>
    split at h
    · cases h; exact dtorStore ‹_›
    · cases h
  case dtorNotify =>
    split at h
    · cases h; exact dtorNotify ‹_›
    · cases h
  case dtorJoin =>
    split at h
    · split at h
      · cases h; exact dtorMove _
      · cases h
    · cases h
  case dtorReturn =>
    split at h
    · split at h
      · cases h; exact dtorMove _
      · cases h
    · cases h

theorem getElem?_append_one {β : Type} {l : List β} {j : Nat} {x y : β} :
    (l ++ [x])[j]? = some y ↔ l[j]? = some y ∨ (j = l.length ∧ x = y) := by
  rw [List.getElem?_append]
  by_cases h : j < l.length
  · simp only [h, if_true]
    constructor
    · exact Or.inl
    · rintro (h1 | ⟨h1, _⟩)
      · exact h1
      · omega
  · simp only [h, if_false]
    have hnone : l[j]? = none := List.getElem?_eq_none (by omega)
    rw [hnone]
    by_cases h2 : j = l.length
    · subst h2; simp
    · have : j - l.length ≠ 0 := by omega
      obtain ⟨k, hk⟩ := Nat.exists_eq_succ_of_ne_zero this
      rw [hk]
      simp [h2]

theorem lt_length_of_getElem? {β : Type} {l : List β} {j : Nat} {y : β}
    (h : l[j]? = some y) : j < l.length := by
  by_contra hlt
  rw [List.getElem?_eq_none (by omega)] at h
  cases h

@[simp] theorem wake_eq_exited (w : WorkerPc) : wake w = .exited ↔ w = .exited := by
  cases w <;> simp [wake]

@[simp] theorem wake_eq_check (w : WorkerPc) : wake w = .check ↔ w = .check := by
  cases w <;> simp [wake]

@[simp] theorem wake_eq_run (w : WorkerPc) (t : Task) : wake w = .run t ↔ w = .run t := by
  cases w <;> simp [wake]

@[simp] theorem wake_holdsLock (w : WorkerPc) : (wake w).holdsLock = w.holdsLock := by
  cases w <;> rfl

/-- Case analysis of a step from a state of which `Inv` holds: the task a worker runs
was popped once and its future holds no result, so the call of line 43 returns. -/
theorem step_elim_inv {motive : ThreadPool → Prop} {a : Action} {s s' : ThreadPool}
    (hinv : Inv s) (h : step? a s = some s')
    (call : ∀ w, motive { s with calls := s.calls ++ [.lockPending ⟨s.calls.length, w⟩] })
    (callLock : ∀ c t, s.calls[c]? = some (.lockPending t) → s.queue_mutex = none →
      motive { s with calls := s.calls.set c (.checkStop t), queue_mutex := some (.caller c) })
    (callThrow : ∀ c t, s.calls[c]? = some (.checkStop t) → s.stop = true →
      motive { s with calls := s.calls.set c (.thrown t stoppedMessage), queue_mutex := none })
    (callPass : ∀ c t, s.calls[c]? = some (.checkStop t) → s.stop = false →
      motive { s with calls := s.calls.set c (.emplace t) })
    (callEmplace : ∀ c t, s.calls[c]? = some (.emplace t) →
      motive { s with
        calls := s.calls.set c (.notify t), tasks := s.tasks ++ [t],
        enqueued := s.enqueued ++ [t], queue_mutex := none })
    (callNotify : ∀ c t i, s.calls[c]? = some (.notify t) → s.workers[i]? = some .blocked →
      motive { s with workers := s.workers.set i .wakeup, calls := s.calls.set c (.returned t) })
    (callNotifyNone : ∀ c t, s.calls[c]? = some (.notify t) → .blocked ∉ s.workers →
      motive { s with calls := s.calls.set c (.returned t) })
    (workerLock : ∀ i, (s.workers[i]? = some .top ∨ s.workers[i]? = some .wakeup) →
      s.queue_mutex = none →
      motive { s with workers := s.workers.set i .evalPred, queue_mutex := some (.worker i) })
    (workerPredTrue : ∀ i, s.workers[i]? = some .evalPred → (s.stop = true ∨ s.tasks ≠ []) →
      motive { s with workers := s.workers.set i .check })
    (workerPredFalse : ∀ i, s.workers[i]? = some .evalPred →
      ¬ (s.stop = true ∨ s.tasks ≠ []) →
      motive { s with workers := s.workers.set i .blockPending })
    (workerBlock : ∀ i, s.workers[i]? = some .blockPending →
      motive { s with workers := s.workers.set i .blocked, queue_mutex := none })
    (workerExit : ∀ i, s.workers[i]? = some .check → s.stop = true → s.tasks = [] →
      motive { s with workers := s.workers.set i .exited, queue_mutex := none })
    (workerPop : ∀ i t rest, s.workers[i]? = some .check → s.tasks = t :: rest →
      motive { s with
        workers := s.workers.set i (.run t), tasks := rest,
        dequeued := s.dequeued ++ [t], queue_mutex := none })
    (workerRun : ∀ i t, s.workers[i]? = some (.run t) →
      motive { s with
        workers := s.workers.set i .top, futures := s.futures ++ [(t.fut, t.work)] })
    (spurious : ∀ i, s.workers[i]? = some .blocked →
      motive { s with workers := s.workers.set i .wakeup })
    (dtorStore : s.dtor = .notStarted → motive { s with stop := true, dtor := .stored })
    (dtorNotify : s.dtor = .stored →
      motive { s with workers := s.workers.map wake, dtor := .joining 0 })
    (dtorMove : ∀ d, motive { s with dtor := d }) :
    motive s' :=
  step_elim h call callLock callThrow callPass callEmplace callNotify callNotifyNone
    workerLock workerPredTrue workerPredFalse workerBlock workerExit workerPop
    (fun i t hi _ => workerRun i t hi)
    (fun i t hi hm => ((hinv.runDeq i t hi).2 hm).elim)
    spurious dtorStore dtorNotify dtorMove

theorem fifo_step {a : Action} {s s' : ThreadPool} (hinv : Inv s) (h : step? a s = some s') :
    s'.enqueued = s'.dequeued ++ s'.tasks := by
  have hI := hinv.fifo
  apply step_elim_inv hinv (motive := fun s' => s'.enqueued = s'.dequeued ++ s'.tasks) h
  case callEmplace => intro c t _; simp [hI]
  case workerPop => intro i t rest _ ht; simp [hI, ht]
  all_goals intros
  all_goals exact hI

theorem callId_step {a : Action} {s s' : ThreadPool} (hinv : Inv s) (h : step? a s = some s') :
    ∀ (c : Nat) (pc : CallPc), s'.calls[c]? = some pc → pc.task.fut = c := by
  have hI := hinv.callId
  have hset : ∀ (c₀ : Nat) (old new : CallPc), s.calls[c₀]? = some old → new.task = old.task →
      ∀ (c : Nat) (pc : CallPc), (s.calls.set c₀ new)[c]? = some pc → pc.task.fut = c := by
    intro c₀ old new h0 hnew c pc hx
    rcases getElem?_set_some.1 hx with ⟨rfl, _, rfl⟩ | ⟨_, hx⟩
    · rw [hnew]; exact hI _ _ h0
    · exact hI _ _ hx
  apply step_elim_inv hinv (motive := fun s' =>
    ∀ (c : Nat) (pc : CallPc), s'.calls[c]? = some pc → pc.task.fut = c) h
  case call =>
    intro w c pc hx
    rcases getElem?_append_one.1 hx with hx | ⟨rfl, rfl⟩
    · exact hI _ _ hx
    · rfl
  case callLock => intro c t hc _; exact hset c _ _ hc rfl
  case callThrow => intro c t hc _; exact hset c _ _ hc rfl
  case callPass => intro c t hc _; exact hset c _ _ hc rfl
  case callEmplace => intro c t hc; exact hset c _ _ hc rfl
  case callNotify => intro c t i hc _; exact hset c _ _ hc rfl
  case callNotifyNone => intro c t hc _; exact hset c _ _ hc rfl
  all_goals intros
  all_goals (apply hI; assumption)

theorem enq_step {a : Action} {s s' : ThreadPool} (hinv : Inv s) (h : step? a s = some s') :
    ∀ t ∈ s'.enqueued,
      s'.calls[t.fut]? = some (.notify t) ∨ s'.calls[t.fut]? = some (.returned t) := by
  have hI := hinv.enq
  have hId := hinv.callId
  -- a call that is not past line 66 changes its position
  have hset : ∀ (c₀ : Nat) (old new : CallPc), s.calls[c₀]? = some old →
      (∀ t, old ≠ .notify t) → (∀ t, old ≠ .returned t) →
      ∀ t ∈ s.enqueued, (s.calls.set c₀ new)[t.fut]? = some (.notify t) ∨
        (s.calls.set c₀ new)[t.fut]? = some (.returned t) := by
    intro c₀ old new h0 h1 h2 t ht
    have hne : c₀ ≠ t.fut := by
      rintro rfl
      rcases hI t ht with h | h
      · rw [h0] at h; exact h1 t (Option.some.inj h)
      · rw [h0] at h; exact h2 t (Option.some.inj h)
    rw [List.getElem?_set_ne hne]
    exact hI t ht
  have hret : ∀ (c₀ : Nat) (t₀ : Task), s.calls[c₀]? = some (.notify t₀) →
      ∀ t ∈ s.enqueued, (s.calls.set c₀ (.returned t₀))[t.fut]? = some (.notify t) ∨
        (s.calls.set c₀ (.returned t₀))[t.fut]? = some (.returned t) := by
    intro c₀ t₀ h0 t ht
    by_cases hne : c₀ = t.fut
    · subst hne
      right
      rcases hI t ht with h | h
      · rw [h0] at h
        cases h
        exact getElem?_set_some.2 (Or.inl ⟨rfl, lt_length_of_getElem? h0, rfl⟩)
      · rw [h0] at h; cases h
    · rw [List.getElem?_set_ne hne]
      exact hI t ht
  apply step_elim_inv hinv (motive := fun s' => ∀ t ∈ s'.enqueued,
      s'.calls[t.fut]? = some (.notify t) ∨ s'.calls[t.fut]? = some (.returned t)) h
  case call =>
    intro w t ht
    rcases hI t ht with h | h
    · exact Or.inl (getElem?_append_one.2 (Or.inl h))
    · exact Or.inr (getElem?_append_one.2 (Or.inl h))
  case callLock => intro c t hc _; exact hset c _ _ hc (by simp) (by simp)
  case callThrow => intro c t hc _; exact hset c _ _ hc (by simp) (by simp)
  case callPass => intro c t hc _; exact hset c _ _ hc (by simp) (by simp)
  case callEmplace =>
    intro c t hc t' ht'
    dsimp only at ht' ⊢
    rcases List.mem_append.1 ht' with ht' | ht'
    · exact hset c _ _ hc (by simp) (by simp) t' ht'
    · rw [List.mem_singleton] at ht'
      subst ht'
      have : t'.fut = c := hId _ _ hc
      subst this
      exact Or.inl (getElem?_set_some.2 (Or.inl ⟨rfl, lt_length_of_getElem? hc, rfl⟩))
  case callNotify => intro c t i hc _; exact hret c t hc
  case callNotifyNone => intro c t hc _; exact hret c t hc
  all_goals intros
  all_goals (apply hI; assumption)

theorem enqNodup_step {a : Action} {s s' : ThreadPool} (hinv : Inv s) (h : step? a s = some s') :
    (s'.enqueued.map Task.fut).Nodup := by
  have hI := hinv.enqNodup
  apply step_elim_inv hinv (motive := fun s' => (s'.enqueued.map Task.fut).Nodup) h
  case callEmplace =>
    intro c t hc
    dsimp only
    rw [List.map_append, List.nodup_append]
    refine ⟨hI, by simp, ?_⟩
    intro f hf hf'
    simp only [List.map_cons, List.map_nil, List.mem_singleton] at hf'
    subst hf'
    obtain ⟨t', ht', hfut⟩ := List.mem_map.1 hf
    have hc' : t.fut = c := hinv.callId _ _ hc
    rcases hinv.enq t' ht' with h1 | h1
    · rw [hfut, hc', hc] at h1; cases h1
    · rw [hfut, hc', hc] at h1; cases h1
  all_goals intros
  all_goals exact hI

theorem mutexW_step {a : Action} {s s' : ThreadPool} (hinv : Inv s) (h : step? a s = some s') :
    ∀ (i : Nat) (pc : WorkerPc), s'.workers[i]? = some pc → pc.holdsLock = true →
      s'.queue_mutex = some (.worker i) := by
  have hI := hinv.mutexW
  have hC := hinv.mutexC
  apply step_elim_inv hinv (motive := fun s' => ∀ (i : Nat) (pc : WorkerPc),
    s'.workers[i]? = some pc → pc.holdsLock = true → s'.queue_mutex = some (.worker i)) h
  case callLock =>
    intro c t _ hl i pc hw hp
    have := hI i pc hw hp
    rw [hl] at this; cases this
  case callThrow =>
    intro c t hc _ i pc hw hp
    have h1 := hI i pc hw hp
    have h2 := hC c _ hc rfl
    rw [h1] at h2; cases h2
  case callEmplace =>
    intro c t hc i pc hw hp
    have h1 := hI i pc hw hp
    have h2 := hC c _ hc rfl
    rw [h1] at h2; cases h2
  case callNotify =>
    intro c t i _ _ j pc hw hp
    rcases getElem?_set_some.1 hw with ⟨rfl, _, rfl⟩ | ⟨_, hw⟩
    · cases hp
    · exact hI j pc hw hp
  case workerLock =>
    intro i _ hl j pc hw hp
    rcases getElem?_set_some.1 hw with ⟨rfl, _, rfl⟩ | ⟨_, hw⟩
    · rfl
    · have := hI j pc hw hp
      rw [hl] at this; cases this
  case workerPredTrue =>
    intro i hi _ j pc hw hp
    rcases getElem?_set_some.1 hw with ⟨rfl, _, rfl⟩ | ⟨_, hw⟩
    · exact hI _ _ hi rfl
    · exact hI j pc hw hp
  case workerPredFalse =>
    intro i hi _ j pc hw hp
    rcases getElem?_set_some.1 hw with ⟨rfl, _, rfl⟩ | ⟨_, hw⟩
    · exact hI _ _ hi rfl
    · exact hI j pc hw hp
  case workerBlock =>
    intro i hi j pc hw hp
    rcases getElem?_set_some.1 hw with ⟨rfl, _, rfl⟩ | ⟨hne, hw⟩
    · cases hp
    · have h1 := hI j pc hw hp
      have h2 := hI i _ hi rfl
      rw [h1] at h2; cases h2; exact absurd rfl hne
  case workerExit =>
    intro i hi _ _ j pc hw hp
    rcases getElem?_set_some.1 hw with ⟨rfl, _, rfl⟩ | ⟨hne, hw⟩
    · cases hp
    · have h1 := hI j pc hw hp
      have h2 := hI i _ hi rfl
      rw [h1] at h2; cases h2; exact absurd rfl hne
  case workerPop =>
    intro i t rest hi _ j pc hw hp
    rcases getElem?_set_some.1 hw with ⟨rfl, _, rfl⟩ | ⟨hne, hw⟩
    · cases hp
    · have h1 := hI j pc hw hp
      have h2 := hI i _ hi rfl
      rw [h1] at h2; cases h2; exact absurd rfl hne
  case workerRun =>
    intro i t _ j pc hw hp
    rcases getElem?_set_some.1 hw with ⟨rfl, _, rfl⟩ | ⟨_, hw⟩
    · cases hp
    · exact hI j pc hw hp
  case spurious =>
    intro i _ j pc hw hp
    rcases getElem?_set_some.1 hw with ⟨rfl, _, rfl⟩ | ⟨_, hw⟩
    · cases hp
    · exact hI j pc hw hp
  case dtorNotify =>
    intro _ j pc hw hp
    dsimp only at hw ⊢
    rw [List.getElem?_map] at hw
    cases hj : s.workers[j]? with
    | none => rw [hj] at hw; cases hw
    | some w =>
      rw [hj] at hw
      cases hw
      rw [wake_holdsLock] at hp
      exact hI j w hj hp
  all_goals intros
  all_goals (apply hI <;> assumption)

theorem mutexC_step {a : Action} {s s' : ThreadPool} (hinv : Inv s) (h : step? a s = some s') :
    ∀ (c : Nat) (pc : CallPc), s'.calls[c]? = some pc → pc.holdsLock = true →
      s'.queue_mutex = some (.caller c) := by
  have hI := hinv.mutexC
  have hW := hinv.mutexW
  -- a worker that holds the mutex excludes every call from holding it
  have hex : ∀ (i : Nat) (w : WorkerPc), s.workers[i]? = some w → w.holdsLock = true →
      ∀ (c : Nat) (pc : CallPc), s.calls[c]? = some pc → pc.holdsLock = true → False := by
    intro i w hi hw c pc hc hp
    have h1 := hI c pc hc hp
    have h2 := hW i w hi hw
    rw [h1] at h2; cases h2
  apply step_elim_inv hinv (motive := fun s' => ∀ (c : Nat) (pc : CallPc),
    s'.calls[c]? = some pc → pc.holdsLock = true → s'.queue_mutex = some (.caller c)) h
  case call =>
    intro w c pc hx hp
    rcases getElem?_append_one.1 hx with hx | ⟨rfl, rfl⟩
    · exact hI c pc hx hp
    · cases hp
  case callLock =>
    intro c t _ hl c' pc hx hp
    rcases getElem?_set_some.1 hx with ⟨rfl, _, rfl⟩ | ⟨_, hx⟩
    · rfl
    · have := hI c' pc hx hp
      rw [hl] at this; cases this
  case callThrow =>
    intro c t hc _ c' pc hx hp
    rcases getElem?_set_some.1 hx with ⟨rfl, _, rfl⟩ | ⟨hne, hx⟩
    · cases hp
    · have h1 := hI c' pc hx hp
      have h2 := hI c _ hc rfl
      rw [h1] at h2; cases h2; exact absurd rfl hne
  case callPass =>
    intro c t hc _ c' pc hx hp
    rcases getElem?_set_some.1 hx with ⟨rfl, _, rfl⟩ | ⟨_, hx⟩
    · exact hI _ _ hc rfl
    · exact hI c' pc hx hp
  case callEmplace =>
    intro c t hc c' pc hx hp
    rcases getElem?_set_some.1 hx with ⟨rfl, _, rfl⟩ | ⟨hne, hx⟩
    · cases hp
    · have h1 := hI c' pc hx hp
      have h2 := hI c _ hc rfl
      rw [h1] at h2; cases h2; exact absurd rfl hne
  case callNotify =>
    intro c t i _ _ c' pc hx hp
    rcases getElem?_set_some.1 hx with ⟨rfl, _, rfl⟩ | ⟨_, hx⟩
    · cases hp
    · exact hI c' pc hx hp
  case callNotifyNone =>
    intro c t _ _ c' pc hx hp
    rcases getElem?_set_some.1 hx with ⟨rfl, _, rfl⟩ | ⟨_, hx⟩
    · cases hp
    · exact hI c' pc hx hp
  case workerLock =>
    intro i _ hl c pc hx hp
    have := hI c pc hx hp
    rw [hl] at this; cases this
  case workerBlock => intro i hi c pc hx hp; exact (hex i _ hi rfl c pc hx hp).elim
  case workerExit => intro i hi _ _ c pc hx hp; exact (hex i _ hi rfl c pc hx hp).elim
  case workerPop => intro i t rest hi _ c pc hx hp; exact (hex i _ hi rfl c pc hx hp).elim
  all_goals intros
  all_goals (apply hI <;> assumption)

theorem stopExit_step {a : Action} {s s' : ThreadPool} (hinv : Inv s) (h : step? a s = some s') :
    ∀ i : Nat, s'.workers[i]? = some WorkerPc.exited → s'.stop = true := by
  have hI := hinv.stopExit
  apply step_elim_inv hinv (motive := fun s' =>
    ∀ i : Nat, s'.workers[i]? = some WorkerPc.exited → s'.stop = true) h
  case dtorNotify =>
    intro _ j hw
    dsimp only at hw ⊢
    rw [List.getElem?_map] at hw
    cases hj : s.workers[j]? with
    | none => rw [hj] at hw; cases hw
    | some w =>
      rw [hj] at hw
      simp only [Option.map_some', Option.some.injEq, wake_eq_exited] at hw
      subst hw
      exact hI j hj
  case dtorStore => intros; rfl
  case workerExit =>
    intro i _ hs _ j _
    exact hs
  all_goals intros
  all_goals dsimp only at *
  all_goals first
    | (apply hI <;> assumption)
    | (rename_i hx; rcases getElem?_set_some.1 hx with ⟨_, _, hx⟩ | ⟨_, hx⟩
       · cases hx
       · exact hI _ hx)

theorem getElem?_map_wake_exited {l : List WorkerPc} {j : Nat} :
    (l.map wake)[j]? = some WorkerPc.exited ↔ l[j]? = some WorkerPc.exited := by
  rw [List.getElem?_map]
  cases l[j]? with
  | none => simp
  | some w => simp

theorem getElem?_map_wake_check {l : List WorkerPc} {j : Nat} :
    (l.map wake)[j]? = some WorkerPc.check ↔ l[j]? = some WorkerPc.check := by
  rw [List.getElem?_map]
  cases l[j]? with
  | none => simp
  | some w => simp

theorem getElem?_map_wake_run {l : List WorkerPc} {j : Nat} {t : Task} :
    (l.map wake)[j]? = some (WorkerPc.run t) ↔ l[j]? = some (WorkerPc.run t) := by
  rw [List.getElem?_map]
  cases l[j]? with
  | none => simp
  | some w => simp

theorem noExit_step {a : Action} {s s' : ThreadPool} (hinv : Inv s) (h : step? a s = some s') :
    ∀ (c : Nat) (t : Task) (i : Nat), s'.calls[c]? = some (CallPc.emplace t) →
      s'.workers[i]? ≠ some WorkerPc.exited := by
  have hI := hinv.noExit
  -- a call moves to a position other than line 66
  have hcall : ∀ (c₀ : Nat) (new : CallPc), (∀ t, new ≠ .emplace t) →
      ∀ (c : Nat) (t : Task) (i : Nat), (s.calls.set c₀ new)[c]? = some (CallPc.emplace t) →
        s.workers[i]? ≠ some WorkerPc.exited := by
    intro c₀ new hnew c t i hx
    rcases getElem?_set_some.1 hx with ⟨_, _, hx⟩ | ⟨_, hx⟩
    · exact (hnew t hx).elim
    · exact hI c t i hx
  -- a worker moves to a position other than the exit
  have hwork : ∀ (i₀ : Nat) (new : WorkerPc), new ≠ .exited →
      ∀ (c : Nat) (t : Task) (i : Nat), s.calls[c]? = some (CallPc.emplace t) →
        (s.workers.set i₀ new)[i]? ≠ some WorkerPc.exited := by
    intro i₀ new hnew c t i hc hx
    rcases getElem?_set_some.1 hx with ⟨_, _, hx⟩ | ⟨_, hx⟩
    · exact hnew hx
    · exact hI c t i hc hx
  apply step_elim_inv hinv (motive := fun s' => ∀ (c : Nat) (t : Task) (i : Nat),
    s'.calls[c]? = some (CallPc.emplace t) → s'.workers[i]? ≠ some WorkerPc.exited) h
  case call =>
    intro w c t i hx
    rcases getElem?_append_one.1 hx with hx | ⟨_, hx⟩
    · exact hI c t i hx
    · cases hx
  case callLock => intro c t _ _; exact hcall c _ (by simp)
  case callThrow => intro c t _ _; exact hcall c _ (by simp)
  case callPass =>
    intro c₀ t₀ _ hs c t i hx hw
    rcases getElem?_set_some.1 hx with ⟨_, _, _⟩ | ⟨_, hx⟩
    · have := hinv.stopExit i hw
      rw [hs] at this; cases this
    · exact hI c t i hx hw
  case callEmplace => intro c t _; exact hcall c _ (by simp)
  case callNotify =>
    intro c₀ t₀ i₀ _ _ c t i hx
    dsimp only at hx ⊢
    rcases getElem?_set_some.1 hx with ⟨_, _, hx⟩ | ⟨_, hx⟩
    · cases hx
    · exact hwork i₀ _ (by simp) c t i hx
  case callNotifyNone => intro c t _ _; exact hcall c _ (by simp)
  case workerLock => intro i _ _; exact hwork i _ (by simp)
  case workerPredTrue => intro i _ _; exact hwork i _ (by simp)
  case workerPredFalse => intro i _ _; exact hwork i _ (by simp)
  case workerBlock => intro i _; exact hwork i _ (by simp)
  case workerExit =>
    intro i₀ hi _ _ c t i hc
    have h1 := hinv.mutexW i₀ _ hi rfl
    have h2 := hinv.mutexC c _ hc rfl
    rw [h1] at h2; cases h2
  case workerPop => intro i t rest _ _; exact hwork i _ (by simp)
  case workerRun => intro i t _; exact hwork i _ (by simp)
  case spurious => intro i _; exact hwork i _ (by simp)
  case dtorNotify =>
    intro _ c t i hc hx
    exact hI c t i hc (getElem?_map_wake_exited.1 hx)
  all_goals intros
  all_goals (apply hI <;> assumption)

theorem checkOk_step {a : Action} {s s' : ThreadPool} (hinv : Inv s) (h : step? a s = some s') :
    ∀ i : Nat, s'.workers[i]? = some WorkerPc.check → s'.stop = true ∨ s'.tasks ≠ [] := by
  have hI := hinv.checkOk
  have hwork : ∀ (i₀ : Nat) (new : WorkerPc), new ≠ .check →
      ∀ i : Nat, (s.workers.set i₀ new)[i]? = some WorkerPc.check →
        s.stop = true ∨ s.tasks ≠ [] := by
    intro i₀ new hnew i hx
    rcases getElem?_set_some.1 hx with ⟨_, _, hx⟩ | ⟨_, hx⟩
    · exact (hnew hx).elim
    · exact hI i hx
  apply step_elim_inv hinv (motive := fun s' =>
    ∀ i : Nat, s'.workers[i]? = some WorkerPc.check → s'.stop = true ∨ s'.tasks ≠ []) h
  case callEmplace => intro c t _ i _; right; simp
  case callNotify => intro c t i _ _; exact hwork i _ (by simp)
  case workerLock => intro i _ _; exact hwork i _ (by simp)
  case workerPredTrue =>
    intro i₀ _ hg i hx
    exact hg
  case workerPredFalse => intro i _ _; exact hwork i _ (by simp)
  case workerBlock => intro i _; exact hwork i _ (by simp)
  case workerExit => intro i _ _ _; exact hwork i _ (by simp)
  case workerPop =>
    intro i₀ t rest hi _ i hx
    rcases getElem?_set_some.1 hx with ⟨_, _, hx⟩ | ⟨hne, hx⟩
    · cases hx
    · have h1 := hinv.mutexW i₀ _ hi rfl
      have h2 := hinv.mutexW i _ hx rfl
      rw [h1] at h2; cases h2; exact absurd rfl hne
  case workerRun => intro i t _; exact hwork i _ (by simp)
  case spurious => intro i _; exact hwork i _ (by simp)
  case dtorStore => intro _ i _; exact Or.inl rfl
  case dtorNotify => intro _ i hx; exact hI i (getElem?_map_wake_check.1 hx)
  all_goals intros
  all_goals (apply hI <;> assumption)

theorem drain_step {a : Action} {s s' : ThreadPool} (hinv : Inv s) (h : step? a s = some s') :
    s'.workers ≠ [] →
      (∀ (i : Nat) (pc : WorkerPc), s'.workers[i]? = some pc → pc = .exited) →
      s'.tasks = [] := by
  have hI := hinv.drain
  have hwork : ∀ (i₀ : Nat) (old new : WorkerPc), s.workers[i₀]? = some old →
      new ≠ .exited →
      (∀ (i : Nat) (pc : WorkerPc), (s.workers.set i₀ new)[i]? = some pc → pc = .exited) →
      False := by
    intro i₀ old new hold hnew hall
    exact hnew (hall i₀ new
      (getElem?_set_some.2 (Or.inl ⟨rfl, lt_length_of_getElem? hold, rfl⟩)))
  apply step_elim_inv hinv (motive := fun s' => s'.workers ≠ [] →
      (∀ (i : Nat) (pc : WorkerPc), s'.workers[i]? = some pc → pc = .exited) →
      s'.tasks = []) h
  case callEmplace =>
    intro c t hc hne hall
    dsimp only at hne hall
    exfalso
    cases hw : s.workers with
    | nil => exact hne hw
    | cons w ws =>
      have h0 : s.workers[0]? = some w := by rw [hw]; simp
      have := hall 0 w h0
      subst this
      exact hinv.noExit c t 0 hc h0
  case callNotify => intro c t i _ hi _ hall; exact (hwork i _ _ hi (by simp) hall).elim
  case workerLock =>
    intro i hi _ _ hall
    rcases hi with hi | hi
    · exact (hwork i _ _ hi (by simp) hall).elim
    · exact (hwork i _ _ hi (by simp) hall).elim
  case workerPredTrue => intro i hi _ _ hall; exact (hwork i _ _ hi (by simp) hall).elim
  case workerPredFalse => intro i hi _ _ hall; exact (hwork i _ _ hi (by simp) hall).elim
  case workerBlock => intro i hi _ hall; exact (hwork i _ _ hi (by simp) hall).elim
  case workerExit => intro i _ _ ht _ _; exact ht
  case workerPop => intro i t rest hi _ _ hall; exact (hwork i _ _ hi (by simp) hall).elim
  case workerRun => intro i t hi _ hall; exact (hwork i _ _ hi (by simp) hall).elim
  case spurious => intro i hi _ hall; exact (hwork i _ _ hi (by simp) hall).elim
  case dtorNotify =>
    intro _ hne hall
    dsimp only at hne hall ⊢
    apply hI
    · intro h0; apply hne; rw [h0]; rfl
    · intro i pc hi
      have := hall i (wake pc) (by rw [List.getElem?_map, hi]; rfl)
      exact (wake_eq_exited pc).1 this
  all_goals intros
  all_goals (apply hI <;> assumption)

/-- A task still in the queue shares its future with no task already popped. -/
theorem queue_fresh {s : ThreadPool} (hinv : Inv s) {t t' : Task} (ht : t ∈ s.tasks)
    (ht' : t' ∈ s.dequeued) : t'.fut ≠ t.fut := by
  have h := hinv.enqNodup
  rw [hinv.fifo, List.map_append, List.nodup_append] at h
  intro heq
  exact h.2.2 (List.mem_map.2 ⟨t', ht', rfl⟩) (List.mem_map.2 ⟨t, ht, heq.symm⟩)

theorem deq_step {a : Action} {s s' : ThreadPool} (hinv : Inv s) (h : step? a s = some s') :
    ∀ t ∈ s'.dequeued,
      (t.fut, t.work) ∈ s'.futures ∨ ∃ i : Nat, s'.workers[i]? = some (WorkerPc.run t) := by
  have hI := hinv.deq
  have hwork : ∀ (i₀ : Nat) (old new : WorkerPc), s.workers[i₀]? = some old →
      (∀ t, old ≠ .run t) → ∀ t ∈ s.dequeued,
      (t.fut, t.work) ∈ s.futures ∨
        ∃ i : Nat, (s.workers.set i₀ new)[i]? = some (WorkerPc.run t) := by
    intro i₀ old new hold hnr t ht
    rcases hI t ht with h1 | ⟨i, hi⟩
    · exact Or.inl h1
    · right
      refine ⟨i, ?_⟩
      have hne : i₀ ≠ i := by
        rintro rfl
        rw [hold] at hi
        exact hnr t (Option.some.inj hi)
      rw [List.getElem?_set_ne hne]
      exact hi
  apply step_elim_inv hinv (motive := fun s' => ∀ t ∈ s'.dequeued,
      (t.fut, t.work) ∈ s'.futures ∨ ∃ i : Nat, s'.workers[i]? = some (WorkerPc.run t)) h
  case callNotify => intro c t i _ hi; exact hwork i _ _ hi (by simp)
  case workerLock =>
    intro i hi _
    rcases hi with hi | hi
    · exact hwork i _ _ hi (by simp)
    · exact hwork i _ _ hi (by simp)
  case workerPredTrue => intro i hi _; exact hwork i _ _ hi (by simp)
  case workerPredFalse => intro i hi _; exact hwork i _ _ hi (by simp)
  case workerBlock => intro i hi; exact hwork i _ _ hi (by simp)
  case workerExit => intro i hi _ _; exact hwork i _ _ hi (by simp)
  case spurious => intro i hi; exact hwork i _ _ hi (by simp)
  case workerPop =>
    intro i₀ t₀ rest hi _ t ht
    dsimp only at ht ⊢
    rcases List.mem_append.1 ht with ht | ht
    · exact hwork i₀ _ _ hi (by simp) t ht
    · rw [List.mem_singleton] at ht
      subst ht
      exact Or.inr ⟨i₀, getElem?_set_some.2 (Or.inl ⟨rfl, lt_length_of_getElem? hi, rfl⟩)⟩
  case workerRun =>
    intro i₀ t₀ hi t ht
    dsimp only at ht ⊢
    rcases hI t ht with h1 | ⟨i, hi'⟩
    · exact Or.inl (List.mem_append_left _ h1)
    · by_cases hne : i₀ = i
      · subst hne
        rw [hi] at hi'
        cases hi'
        exact Or.inl (List.mem_append_right _ (List.mem_singleton.2 rfl))
      · right
        refine ⟨i, ?_⟩
        rw [List.getElem?_set_ne hne]
        exact hi'
  case dtorNotify =>
    intro _ t ht
    rcases hI t ht with h1 | ⟨i, hi⟩
    · exact Or.inl h1
    · exact Or.inr ⟨i, getElem?_map_wake_run.2 hi⟩
  all_goals intros
  all_goals (apply hI; assumption)

theorem fut_step {a : Action} {s s' : ThreadPool} (hinv : Inv s) (h : step? a s = some s') :
    ∀ p ∈ s'.futures, (⟨p.1, p.2⟩ : Task) ∈ s'.dequeued := by
  have hI := hinv.fut
  apply step_elim_inv hinv (motive := fun s' =>
    ∀ p ∈ s'.futures, (⟨p.1, p.2⟩ : Task) ∈ s'.dequeued) h
  case workerPop =>
    intro i t rest _ _ p hp
    exact List.mem_append_left _ (hI p hp)
  case workerRun =>
    intro i t hi p hp
    dsimp only at hp ⊢
    rcases List.mem_append.1 hp with hp | hp
    · exact hI p hp
    · rw [List.mem_singleton] at hp
      subst hp
      exact (hinv.runDeq i t hi).1
  all_goals intros
  all_goals (apply hI; assumption)

theorem futNodup_step {a : Action} {s s' : ThreadPool} (hinv : Inv s) (h : step? a s = some s') :
    (s'.futures.map Prod.fst).Nodup := by
  have hI := hinv.futNodup
  apply step_elim_inv hinv (motive := fun s' => (s'.futures.map Prod.fst).Nodup) h
  case workerRun =>
    intro i t hi
    dsimp only
    rw [List.map_append, List.nodup_append]
    refine ⟨hI, by simp, ?_⟩
    intro f hf hf'
    simp only [List.map_cons, List.map_nil, List.mem_singleton] at hf'
    subst hf'
    exact (hinv.runDeq i t hi).2 hf
  all_goals intros
  all_goals exact hI

theorem runDeq_step {a : Action} {s s' : ThreadPool} (hinv : Inv s) (h : step? a s = some s') :
    ∀ (i : Nat) (t : Task), s'.workers[i]? = some (WorkerPc.run t) →
      t ∈ s'.dequeued ∧ t.fut ∉ s'.futures.map Prod.fst := by
  have hI := hinv.runDeq
  have hwork : ∀ (i₀ : Nat) (new : WorkerPc), (∀ t, new ≠ .run t) →
      ∀ (i : Nat) (t : Task), (s.workers.set i₀ new)[i]? = some (WorkerPc.run t) →
        t ∈ s.dequeued ∧ t.fut ∉ s.futures.map Prod.fst := by
    intro i₀ new hnew i t hx
    rcases getElem?_set_some.1 hx with ⟨_, _, hx⟩ | ⟨_, hx⟩
    · exact (hnew t hx).elim
    · exact hI i t hx
  apply step_elim_inv hinv (motive := fun s' => ∀ (i : Nat) (t : Task),
    s'.workers[i]? = some (WorkerPc.run t) →
      t ∈ s'.dequeued ∧ t.fut ∉ s'.futures.map Prod.fst) h
  case callNotify => intro c t i _ _; exact hwork i _ (by simp)
  case workerLock => intro i _ _; exact hwork i _ (by simp)
  case workerPredTrue => intro i _ _; exact hwork i _ (by simp)
  case workerPredFalse => intro i _ _; exact hwork i _ (by simp)
  case workerBlock => intro i _; exact hwork i _ (by simp)
  case workerExit => intro i _ _ _; exact hwork i _ (by simp)
  case spurious => intro i _; exact hwork i _ (by simp)
  case workerPop =>
    intro i₀ t₀ rest _ htasks i t hx
    dsimp only at hx ⊢
    rcases getElem?_set_some.1 hx with ⟨_, _, hx⟩ | ⟨_, hx⟩
    · cases hx
      refine ⟨List.mem_append_right _ (List.mem_singleton.2 rfl), ?_⟩
      intro hmem
      obtain ⟨p, hp, hpf⟩ := List.mem_map.1 hmem
      have h1 := hinv.fut p hp
      have h2 : t₀ ∈ s.tasks := by rw [htasks]; exact List.mem_cons_self _ _
      exact queue_fresh hinv h2 h1 hpf
    · exact ⟨List.mem_append_left _ (hI i t hx).1, (hI i t hx).2⟩
  case workerRun =>
    intro i₀ t₀ hi i t hx
    dsimp only at hx ⊢
    rcases getElem?_set_some.1 hx with ⟨_, _, hx⟩ | ⟨hne, hx⟩
    · cases hx
    · refine ⟨(hI i t hx).1, ?_⟩
      rw [List.map_append, List.mem_append]
      rintro (hmem | hmem)
      · exact (hI i t hx).2 hmem
      · simp only [List.map_cons, List.map_nil, List.mem_singleton] at hmem
        exact hne (hinv.runInj i₀ i t₀ t hi hx hmem.symm)
  case dtorNotify =>
    intro _ i t hx
    exact hI i t (getElem?_map_wake_run.1 hx)
  all_goals intros
  all_goals (apply hI <;> assumption)

theorem runInj_step {a : Action} {s s' : ThreadPool} (hinv : Inv s) (h : step? a s = some s') :
    ∀ (i j : Nat) (t t' : Task), s'.workers[i]? = some (WorkerPc.run t) →
      s'.workers[j]? = some (WorkerPc.run t') → t.fut = t'.fut → i = j := by
  have hI := hinv.runInj
  have hwork : ∀ (i₀ : Nat) (new : WorkerPc), (∀ t, new ≠ .run t) →
      ∀ (i j : Nat) (t t' : Task), (s.workers.set i₀ new)[i]? = some (WorkerPc.run t) →
        (s.workers.set i₀ new)[j]? = some (WorkerPc.run t') → t.fut = t'.fut → i = j := by
    intro i₀ new hnew i j t t' hx hy
    rcases getElem?_set_some.1 hx with ⟨_, _, hx⟩ | ⟨_, hx⟩
    · exact (hnew t hx).elim
    · rcases getElem?_set_some.1 hy with ⟨_, _, hy⟩ | ⟨_, hy⟩
      · exact (hnew t' hy).elim
      · exact hI i j t t' hx hy
  apply step_elim_inv hinv (motive := fun s' => ∀ (i j : Nat) (t t' : Task),
    s'.workers[i]? = some (WorkerPc.run t) → s'.workers[j]? = some (WorkerPc.run t') →
      t.fut = t'.fut → i = j) h
  case callNotify => intro c t i _ _; exact hwork i _ (by simp)
  case workerLock => intro i _ _; exact hwork i _ (by simp)
  case workerPredTrue => intro i _ _; exact hwork i _ (by simp)
  case workerPredFalse => intro i _ _; exact hwork i _ (by simp)
  case workerBlock => intro i _; exact hwork i _ (by simp)
  case workerExit => intro i _ _ _; exact hwork i _ (by simp)
  case workerRun => intro i t _; exact hwork i _ (by simp)
  case spurious => intro i _; exact hwork i _ (by simp)
  case workerPop =>
    intro i₀ t₀ rest _ htasks i j t t' hx hy hf
    dsimp only at hx hy
    have h2 : t₀ ∈ s.tasks := by rw [htasks]; exact List.mem_cons_self _ _
    rcases getElem?_set_some.1 hx with ⟨hi, _, hx⟩ | ⟨_, hx⟩
    · rcases getElem?_set_some.1 hy with ⟨hj, _, hy⟩ | ⟨_, hy⟩
      · omega
      · cases hx
        exact (queue_fresh hinv h2 (hinv.runDeq j t' hy).1 hf.symm).elim
    · rcases getElem?_set_some.1 hy with ⟨hj, _, hy⟩ | ⟨_, hy⟩
      · cases hy
        exact (queue_fresh hinv h2 (hinv.runDeq i t hx).1 hf).elim
      · exact hI i j t t' hx hy hf
  case dtorNotify =>
    intro _ i j t t' hx hy
    exact hI i j t t' (getElem?_map_wake_run.1 hx) (getElem?_map_wake_run.1 hy)
  all_goals intros
  all_goals (apply hI <;> assumption)

/-- Every fact of `Inv` holds of a fresh pool. -/
theorem Inv_init (threads : Nat) : Inv (init threads) where
  fifo := rfl
  callId := by intro c pc h; simp [init] at h
  enq := by intro t h; simp [init] at h
  enqNodup := by simp [init]
  mutexW := by
    intro i pc h hp
    simp only [init] at h
    rw [List.getElem?_replicate] at h
    split at h
    · cases h; cases hp
    · cases h
  mutexC := by intro c pc h; simp [init] at h
  stopExit := by
    intro i h
    simp only [init] at h
    rw [List.getElem?_replicate] at h
    split at h <;> cases h
  noExit := by intro c t i h; simp [init] at h
  checkOk := by
    intro i h
    simp only [init] at h
    rw [List.getElem?_replicate] at h
    split at h <;> cases h
  drain := by intros; rfl
  deq := by intro t h; simp [init] at h
  fut := by intro p h; simp [init] at h
  futNodup := by simp [init]
  runDeq := by
    intro i t h
    simp only [init] at h
    rw [List.getElem?_replicate] at h
    split at h <;> cases h
  runInj := by
    intro i j t t' h
    simp only [init] at h
    rw [List.getElem?_replicate] at h
    split at h <;> cases h

/-- A step keeps every fact of `Inv`. -/
theorem Inv_step {a : Action} {s s' : ThreadPool} (hinv : Inv s) (h : step? a s = some s') :
    Inv s' where
  fifo := fifo_step hinv h
  callId := callId_step hinv h
  enq := enq_step hinv h
  enqNodup := enqNodup_step hinv h
  mutexW := mutexW_step hinv h
  mutexC := mutexC_step hinv h
  stopExit := stopExit_step hinv h
  noExit := noExit_step hinv h
  checkOk := checkOk_step hinv h
  drain := drain_step hinv h
  deq := deq_step hinv h
  fut := fut_step hinv h
  futNodup := futNodup_step hinv h
  runDeq := runDeq_step hinv h
  runInj := runInj_step hinv h

/-- A property kept by every step is kept by every sequence of steps. -/
theorem run_induction {P : ThreadPool → Prop}
    (hstep : ∀ (a : Action) (s s' : ThreadPool), P s → step? a s = some s' → P s')
    (as : List Action) : ∀ (s s' : ThreadPool), P s → run as s = some s' → P s' := by
  induction as with
  | nil =>
    intro s s' hP h
    simp only [run] at h
    cases h
    exact hP
  | cons a as ih =>
    intro s s' hP h
    simp only [run] at h
    cases hs : step? a s with
    | none => rw [hs] at h; cases h
    | some s₁ =>
      rw [hs] at h
      exact ih s₁ s' (hstep a s s₁ hP hs) h

theorem Inv_run {as : List Action} {s s' : ThreadPool} (hinv : Inv s) (h : run as s = some s') :
    Inv s' :=
  run_induction (fun _ _ _ hP hs => Inv_step hP hs) as s s' hinv h

theorem Inv_of_reachable {threads : Nat} {s : ThreadPool} (h : Reachable threads s) : Inv s := by
  obtain ⟨as, has⟩ := h
  exact Inv_run (Inv_init threads) has

theorem run_append (as bs : List Action) (s : ThreadPool) :
    run (as ++ bs) s = (run as s).bind (run bs) := by
  induction as generalizing s with
  | nil => rfl
  | cons a as ih =>
    simp only [List.cons_append, run]
    cases step? a s with
    | none => rfl
    | some s₁ => exact ih s₁

theorem Reachable_run {threads : Nat} {as : List Action} {s s' : ThreadPool}
    (hs : Reachable threads s) (h : run as s = some s') : Reachable threads s' := by
  obtain ⟨bs, hbs⟩ := hs
  refine ⟨bs ++ as, ?_⟩
  rw [run_append, hbs]
  exact h

theorem workers_length_step {a : Action} {s s' : ThreadPool} (h : step? a s = some s') :
    s'.workers.length = s.workers.length := by
  apply step_elim (motive := fun s' => s'.workers.length = s.workers.length) h
  all_goals intros
  all_goals simp

theorem workers_length {threads : Nat} {s : ThreadPool} (h : Reachable threads s) :
    s.workers.length = threads := by
  obtain ⟨as, has⟩ := h
  have := run_induction (P := fun s => s.workers.length = threads)
    (fun a s s' hP hs => (workers_length_step hs).trans hP) as _ _
    (by simp [init]) has
  exact this

/-! ### Claims on the pool -/

theorem set_append_one {β : Type} (l : List β) (x y : β) :
    (l ++ [x]).set l.length y = l ++ [y] := by
  induction l with
  | nil => rfl
  | cons z zs ih => simp [ih]

/-- In a reachable state a worker on line 37 finds `stop` set or a task in the queue,
so `front()` is never called on an empty queue. -/
theorem worker_check_enabled {threads : Nat} {s : ThreadPool} (hs : Reachable threads s)
    {i : Nat} (hi : s.workers[i]? = some WorkerPc.check) :
    (step? (.workerCheck i) s).isSome = true := by
  have hinv := Inv_of_reachable hs
  rcases hinv.checkOk i hi with h | h
  · cases ht : s.tasks with
    | nil => simp [step?, hi, h, ht]
    | cons t rest => simp [step?, hi, h, ht]
  · cases ht : s.tasks with
    | nil => exact (h ht).elim
    | cons t rest => simp [step?, hi, ht]

theorem reachable_of_run {threads : Nat} {as : List Action} {s : ThreadPool}
    (h : run as (init threads) = some s) : Reachable threads s := ⟨as, h⟩

theorem enqueued_fut_inj {s : ThreadPool} (hinv : Inv s) {t t' : Task} (ht : t ∈ s.enqueued)
    (ht' : t' ∈ s.enqueued) (h : t.fut = t'.fut) : t = t' :=
  List.inj_on_of_nodup_map hinv.enqNodup ht ht' h

theorem dequeued_sub_enqueued {s : ThreadPool} (hinv : Inv s) {t : Task} (ht : t ∈ s.dequeued) :
    t ∈ s.enqueued := by
  rw [hinv.fifo]; exact List.mem_append_left _ ht

theorem tasks_sub_enqueued {s : ThreadPool} (hinv : Inv s) {t : Task} (ht : t ∈ s.tasks) :
    t ∈ s.enqueued := by
  rw [hinv.fifo]; exact List.mem_append_right _ ht

theorem allExited_iff (s : ThreadPool) :
    allExited s ↔ ∀ (i : Nat) (pc : WorkerPc), s.workers[i]? = some pc → pc = .exited := by
  unfold allExited
  constructor
  · intro h i pc hi
    exact h pc (List.mem_iff_getElem?.2 ⟨i, hi⟩)
  · intro h pc hpc
    obtain ⟨i, hi⟩ := List.mem_iff_getElem?.1 hpc
    exact h i pc hi

theorem drained {threads : Nat} {s : ThreadPool} (hT : 0 < threads) (hs : Reachable threads s)
    (hall : allExited s) :
    s.tasks = [] ∧ ∀ t ∈ s.enqueued, t ∈ s.dequeued ∧ (t.fut, t.work) ∈ s.futures := by
  have hinv := Inv_of_reachable hs
  have hlen := workers_length hs
  have hall' := (allExited_iff s).1 hall
  have hne : s.workers ≠ [] := by
    intro h0
    rw [h0] at hlen
    simp at hlen
    omega
  have htasks := hinv.drain hne hall'
  refine ⟨htasks, ?_⟩
  intro t ht
  have hd : t ∈ s.dequeued := by
    rw [hinv.fifo, htasks, List.append_nil] at ht
    exact ht
  refine ⟨hd, ?_⟩
  rcases hinv.deq t hd with h | ⟨i, hi⟩
  · exact h
  · have := hall' i _ hi
    cases this

/-- A worker that was not at the exit and is there after a step took that step with
`stop` set and the queue empty. -/
theorem exit_only_when_drained {a : Action} {s₀ s₁ : ThreadPool} {i : Nat}
    (h : step? a s₀ = some s₁) (h0 : s₀.workers[i]? ≠ some WorkerPc.exited)
    (h1 : s₁.workers[i]? = some WorkerPc.exited) : s₀.stop = true ∧ s₀.tasks = [] := by
  revert h1
  have hwork : ∀ (i₀ : Nat) (new : WorkerPc), new ≠ .exited →
      (s₀.workers.set i₀ new)[i]? = some WorkerPc.exited → s₀.stop = true ∧ s₀.tasks = [] := by
    intro i₀ new hnew hx
    rcases getElem?_set_some.1 hx with ⟨_, _, hx⟩ | ⟨_, hx⟩
    · exact (hnew hx).elim
    · exact (h0 hx).elim
  apply step_elim (motive := fun s₁ =>
    s₁.workers[i]? = some WorkerPc.exited → s₀.stop = true ∧ s₀.tasks = []) h
  case callNotify => intro c t i₀ _ _; exact hwork i₀ _ (by simp)
  case workerLock => intro i₀ _ _; exact hwork i₀ _ (by simp)
  case workerPredTrue => intro i₀ _ _; exact hwork i₀ _ (by simp)
  case workerPredFalse => intro i₀ _ _; exact hwork i₀ _ (by simp)
  case workerBlock => intro i₀ _; exact hwork i₀ _ (by simp)
  case workerExit => intro i₀ _ hs ht _; exact ⟨hs, ht⟩
  case workerPop => intro i₀ t rest _ _; exact hwork i₀ _ (by simp)
  case workerRun => intro i₀ t _ _; exact hwork i₀ _ (by simp)
  case workerCrash => intro i₀ t _ _; exact hwork i₀ _ (by simp)
  case spurious => intro i₀ _; exact hwork i₀ _ (by simp)
  case dtorNotify => intro _ hx; exact (h0 (getElem?_map_wake_exited.1 hx)).elim
  all_goals intros
  all_goals exact (h0 (by assumption)).elim

theorem Reachable_step {threads : Nat} {a : Action} {s s' : ThreadPool}
    (hs : Reachable threads s) (h : step? a s = some s') : Reachable threads s' := by
  have hrun : run [a] s = some s' := by simp [run, h]
  exact Reachable_run hs hrun

theorem Rejecting_step {c : Nat} {t : Task} {a : Action} {s s' : ThreadPool} (hinv : Inv s)
    (hr : Rejecting c t s) (h : step? a s = some s') : Rejecting c t s' := by
  obtain ⟨hstop, hpc, henq⟩ := hr
  -- another call moves, or call `c` moves from `old` to `new`
  have hset : ∀ (c₀ : Nat) (old new : CallPc), s.calls[c₀]? = some old →
      ((old = .lockPending t ∨ old = .checkStop t ∨ old = .thrown t stoppedMessage) →
        (new = .lockPending t ∨ new = .checkStop t ∨ new = .thrown t stoppedMessage)) →
      ((s.calls.set c₀ new)[c]? = some (.lockPending t) ∨
        (s.calls.set c₀ new)[c]? = some (.checkStop t) ∨
        (s.calls.set c₀ new)[c]? = some (.thrown t stoppedMessage)) := by
    intro c₀ old new hold hnew
    by_cases hc : c₀ = c
    · subst hc
      have hlt := lt_length_of_getElem? hold
      have hold' : old = .lockPending t ∨ old = .checkStop t ∨
          old = .thrown t stoppedMessage := by
        rw [hold] at hpc
        rcases hpc with h | h | h
        · exact Or.inl (Option.some.inj h)
        · exact Or.inr (Or.inl (Option.some.inj h))
        · exact Or.inr (Or.inr (Option.some.inj h))
      have hget : (s.calls.set c₀ new)[c₀]? = some new :=
        getElem?_set_some.2 (Or.inl ⟨rfl, hlt, rfl⟩)
      rw [hget]
      rcases hnew hold' with h | h | h
      · exact Or.inl (congrArg some h)
      · exact Or.inr (Or.inl (congrArg some h))
      · exact Or.inr (Or.inr (congrArg some h))
    · rw [List.getElem?_set_ne hc]
      exact hpc
  have hbad : ∀ (c₀ : Nat) (old : CallPc), s.calls[c₀]? = some old →
      (∀ t', old ≠ .lockPending t') → (∀ t', old ≠ .checkStop t') →
      (∀ t' m, old ≠ .thrown t' m) → c₀ ≠ c := by
    intro c₀ old hold h1 h2 h3 hc
    subst hc
    rw [hold] at hpc
    rcases hpc with h | h | h
    · exact h1 _ (Option.some.inj h)
    · exact h2 _ (Option.some.inj h)
    · exact h3 _ _ (Option.some.inj h)
  apply step_elim_inv hinv (motive := fun s' => Rejecting c t s') h
  case call =>
    intro w
    refine ⟨hstop, ?_, henq⟩
    dsimp only
    rcases hpc with h | h | h
    · exact Or.inl (getElem?_append_one.2 (Or.inl h))
    · exact Or.inr (Or.inl (getElem?_append_one.2 (Or.inl h)))
    · exact Or.inr (Or.inr (getElem?_append_one.2 (Or.inl h)))
  case callLock =>
    intro c₀ t₀ hc _
    refine ⟨hstop, hset c₀ _ _ hc ?_, henq⟩
    intro hold
    rcases hold with h | h | h
    · cases h; exact Or.inr (Or.inl rfl)
    · cases h
    · cases h
  case callThrow =>
    intro c₀ t₀ hc _
    refine ⟨hstop, hset c₀ _ _ hc ?_, henq⟩
    intro hold
    rcases hold with h | h | h
    · cases h
    · cases h; exact Or.inr (Or.inr rfl)
    · cases h
  case callPass =>
    intro c₀ t₀ _ hs
    rw [hstop] at hs
    cases hs
  case callEmplace =>
    intro c₀ t₀ hc
    have hne := hbad c₀ _ hc (by simp) (by simp) (by simp)
    refine ⟨hstop, ?_, ?_⟩
    · dsimp only
      rw [List.getElem?_set_ne hne]
      exact hpc
    · intro t' ht'
      dsimp only at ht'
      rcases List.mem_append.1 ht' with ht' | ht'
      · exact henq t' ht'
      · rw [List.mem_singleton] at ht'
        subst ht'
        have hid : t'.fut = c₀ := hinv.callId _ _ hc
        rw [hid]
        exact hne
  case callNotify =>
    intro c₀ t₀ i hc _
    have hne := hbad c₀ _ hc (by simp) (by simp) (by simp)
    refine ⟨hstop, ?_, henq⟩
    dsimp only
    rw [List.getElem?_set_ne hne]
    exact hpc
  case callNotifyNone =>
    intro c₀ t₀ hc _
    have hne := hbad c₀ _ hc (by simp) (by simp) (by simp)
    refine ⟨hstop, ?_, henq⟩
    dsimp only
    rw [List.getElem?_set_ne hne]
    exact hpc
  case dtorStore => intro _; exact ⟨rfl, hpc, henq⟩
  all_goals intros
  all_goals exact ⟨hstop, hpc, henq⟩

/-- C2: in every reachable state with `stop` set, a call of `enqueue` with any task
fails. Run without interruption from a state where the mutex is free, it throws
`enqueue on stopped ThreadPool` and leaves the pool as it was, the queue included.
Whatever the threads do after the call was made, the call is before the check of line
64 or has thrown, never at line 66 or beyond, so no future is returned; it takes the
mutex when the mutex is free; its check throws, releasing the mutex and leaving the
queue as it is; the task is never in the queue, never popped, never run, and its
future is never written. -/
theorem enqueue_rejected_after_stop (threads : Nat) (s : ThreadPool) (hs : Reachable threads s)
    (hstop : s.stop = true) (w : Outcome) (as : List Action) (s' : ThreadPool)
    (hrun : run (.call w :: as) s = some s') :
    (s.queue_mutex = none →
      run [.call w, .callLock s.calls.length, .callCheck s.calls.length] s =
        some { s with calls := s.calls ++
          [.thrown ⟨s.calls.length, w⟩ "enqueue on stopped ThreadPool"] }) ∧
    (s'.calls[s.calls.length]? = some (.lockPending ⟨s.calls.length, w⟩) ∨
      s'.calls[s.calls.length]? = some (.checkStop ⟨s.calls.length, w⟩) ∨
      s'.calls[s.calls.length]? =
        some (.thrown ⟨s.calls.length, w⟩ "enqueue on stopped ThreadPool")) ∧
    (s'.calls[s.calls.length]? = some (.lockPending ⟨s.calls.length, w⟩) →
      s'.queue_mutex = none →
      step? (.callLock s.calls.length) s' = some { s' with
        calls := s'.calls.set s.calls.length (.checkStop ⟨s.calls.length, w⟩),
        queue_mutex := some (.caller s.calls.length) }) ∧
    (s'.calls[s.calls.length]? = some (.checkStop ⟨s.calls.length, w⟩) →
      step? (.callCheck s.calls.length) s' = some { s' with
        calls := s'.calls.set s.calls.length
          (.thrown ⟨s.calls.length, w⟩ "enqueue on stopped ThreadPool"),
        queue_mutex := none }) ∧
    (∀ t' ∈ s'.enqueued ++ s'.tasks ++ s'.dequeued, t'.fut ≠ s.calls.length) ∧
    (∀ (i : Nat) (t' : Task), s'.workers[i]? = some (.run t') →
      t'.fut ≠ s.calls.length) ∧
    (∀ p ∈ s'.futures, p.1 ≠ s.calls.length) := by
  have hinv := Inv_of_reachable hs
  have hinv₁ : Inv { s with calls := s.calls ++ [.lockPending ⟨s.calls.length, w⟩] } :=
    Inv_step (a := .call w) hinv rfl
  have hr₁ : Rejecting s.calls.length ⟨s.calls.length, w⟩
      { s with calls := s.calls ++ [.lockPending ⟨s.calls.length, w⟩] } := by
    refine ⟨hstop, Or.inl (getElem?_append_one.2 (Or.inr ⟨rfl, rfl⟩)), ?_⟩
    intro t' ht' hf
    rcases hinv.enq t' ht' with h | h
    · have := lt_length_of_getElem? h
      omega
    · have := lt_length_of_getElem? h
      omega
  have hboth := run_induction
    (P := fun s' => Inv s' ∧ Rejecting s.calls.length ⟨s.calls.length, w⟩ s')
    (fun a s s' hP hstep => ⟨Inv_step hP.1 hstep, Rejecting_step hP.1 hP.2 hstep⟩)
    as _ s' ⟨hinv₁, hr₁⟩ hrun
  obtain ⟨hinv', hstop', hpc', henq'⟩ := hboth
  refine ⟨?_, hpc', ?_, ?_, ?_, ?_, ?_⟩
  · intro hl
    simp [run, step?, hstop, hl, set_append_one, stoppedMessage]
  · intro hpc hl
    simp [step?, hpc, hl]
  · intro hpc
    simp [step?, hpc, hstop', stoppedMessage]
  · intro t' ht'
    rcases List.mem_append.1 ht' with ht' | ht'
    · rcases List.mem_append.1 ht' with ht' | ht'
      · exact henq' t' ht'
      · exact henq' t' (tasks_sub_enqueued hinv' ht')
    · exact henq' t' (dequeued_sub_enqueued hinv' ht')
  · intro i t' hi
    exact henq' t' (dequeued_sub_enqueued hinv' (hinv'.runDeq i t' hi).1)
  · intro p hp
    exact henq' _ (dequeued_sub_enqueued hinv' (hinv'.fut p hp))

/-- Instance of C2: `enqueue` is called after line 49 of the destructor and runs until
it throws. -/
theorem enqueue_rejected_after_stop_witness :
    run stoppedTrace (init 1) = some stoppedState ∧ stoppedState.stop = true ∧
      run [.call (.value 7), .callLock 1, .callCheck 1] stoppedState = some rejectedState ∧
      rejectedState.tasks = stoppedState.tasks ∧
      (∀ t' ∈ rejectedState.enqueued ++ rejectedState.tasks ++ rejectedState.dequeued,
        t'.fut ≠ 1) :=
  ⟨rfl, rfl, rfl, rfl,
    (enqueue_rejected_after_stop 1 stoppedState ⟨stoppedTrace, rfl⟩ rfl (.value 7)
      [.callLock 1, .callCheck 1] rejectedState rfl).2.2.2.2.1⟩

/-- C3: for a pool constructed with `threads ≥ 1` workers, as the contract of the
constructor requires, in every reachable state in which every worker has exited, the
queue is empty and every emplaced task was popped and run (its future is written); a
worker reaches the exit only by a step taken with `stop` set and the queue empty; with
`stop` set and a non-empty queue the predicate of `wait` holds and line 37 pops the
front task instead of exiting. -/
theorem drain_on_destruction (threads : Nat) (hT : 0 < threads) (s : ThreadPool)
    (hs : Reachable threads s) (hall : allExited s) :
    s.tasks = [] ∧
    (∀ t ∈ s.enqueued, t ∈ s.dequeued ∧ (t.fut, t.work) ∈ s.futures) ∧
    (∀ (a : Action) (s₀ s₁ : ThreadPool) (i : Nat), step? a s₀ = some s₁ →
      s₀.workers[i]? ≠ some WorkerPc.exited → s₁.workers[i]? = some WorkerPc.exited →
      s₀.stop = true ∧ s₀.tasks = []) ∧
    (∀ (s₀ : ThreadPool) (i : Nat) (t : Task) (rest : List Task),
      s₀.stop = true → s₀.tasks = t :: rest →
      (s₀.workers[i]? = some WorkerPc.evalPred →
        step? (.workerPred i) s₀ = some { s₀ with workers := s₀.workers.set i .check }) ∧
      (s₀.workers[i]? = some WorkerPc.check →
        step? (.workerCheck i) s₀ = some { s₀ with
          workers := s₀.workers.set i (.run t), tasks := rest,
          dequeued := s₀.dequeued ++ [t], queue_mutex := none })) := by
  obtain ⟨h1, h2⟩ := drained hT hs hall
  refine ⟨h1, h2, ?_, ?_⟩
  · intro a s₀ s₁ i h h0 hx
    exact exit_only_when_drained h h0 hx
  · intro s₀ i t rest hstop htasks
    constructor
    · intro hw
      simp [step?, hw, hstop]
    · intro hw
      simp [step?, hw, hstop, htasks]

/-- Instance of C3: one worker, one task, the pool destroyed while the task is queued. -/
theorem drain_on_destruction_witness :
    ∃ s, run drainTrace (init 1) = some s ∧ s.dtor = .returned ∧ allExited s ∧
      s.tasks = [] ∧
      (∀ t ∈ s.enqueued, t ∈ s.dequeued ∧ (t.fut, t.work) ∈ s.futures) :=
  have h := drain_on_destruction 1 (by decide) _ ⟨drainTrace, rfl⟩ (by decide)
  ⟨_, rfl, rfl, by decide, h.1, h.2.1⟩

/-- C4: in every reachable state, whatever the number of workers, the tasks popped so
far, in the order they were popped, are a prefix of the tasks emplaced so far, in the
order they were emplaced (the rest being the queue); so no task was popped twice, and
the `i`-th task popped is the `i`-th task emplaced. -/
theorem fifo_dequeue_order (threads : Nat) (s : ThreadPool) (hs : Reachable threads s) :
    s.dequeued <+: s.enqueued ∧
    s.enqueued = s.dequeued ++ s.tasks ∧
    s.dequeued.Nodup ∧
    (∀ i : Nat, i < s.dequeued.length → s.dequeued[i]? = s.enqueued[i]?) := by
  have hinv := Inv_of_reachable hs
  refine ⟨⟨s.tasks, hinv.fifo.symm⟩, hinv.fifo, ?_, ?_⟩
  · have h1 : s.enqueued.Nodup := List.Nodup.of_map _ hinv.enqNodup
    rw [hinv.fifo] at h1
    exact (List.nodup_append.1 h1).1
  · intro i hi
    rw [hinv.fifo, List.getElem?_append_left hi]

/-- Instance of C4: two workers, three calls of `enqueue`, two tasks popped. -/
theorem fifo_dequeue_order_witness :
    ∃ s, run fifoTrace (init 2) = some s ∧
      s.enqueued = [⟨1, .value 20⟩, ⟨0, .value 10⟩, ⟨2, .value 30⟩] ∧
      s.dequeued = [⟨1, .value 20⟩, ⟨0, .value 10⟩] ∧
      s.dequeued <+: s.enqueued :=
  ⟨_, rfl, rfl, rfl, (fifo_dequeue_order 2 _ ⟨fifoTrace, rfl⟩).1⟩

/-- C5: for the tasks emplaced on a pool with at least one worker, their outcomes
pairwise distinct: every future is written at most once; a written future holds the
outcome of the task it was paired with in `enqueue` and of no other task; only futures
of emplaced tasks are written; and once every worker has exited, the futures written
are exactly those of the `K` emplaced tasks. -/
theorem futures_paired (threads : Nat) (hT : 0 < threads) (s : ThreadPool)
    (hs : Reachable threads s)
    (hdist : ∀ t ∈ s.enqueued, ∀ t' ∈ s.enqueued, t.work = t'.work → t = t') :
    (s.futures.map Prod.fst).Nodup ∧
    (∀ t ∈ s.enqueued, ∀ o, (t.fut, o) ∈ s.futures → o = t.work) ∧
    (∀ t ∈ s.enqueued, ∀ t' ∈ s.enqueued, t' ≠ t → (t.fut, t'.work) ∉ s.futures) ∧
    (∀ p ∈ s.futures, ∃ t ∈ s.enqueued, t.fut = p.1 ∧ t.work = p.2) ∧
    (allExited s →
      s.futures.length = s.enqueued.length ∧
      ∀ t ∈ s.enqueued, (t.fut, t.work) ∈ s.futures) := by
  have hinv := Inv_of_reachable hs
  have hown : ∀ t ∈ s.enqueued, ∀ o, (t.fut, o) ∈ s.futures → o = t.work := by
    intro t ht o ho
    have h1 := dequeued_sub_enqueued hinv (hinv.fut _ ho)
    have h2 := enqueued_fut_inj hinv h1 ht rfl
    rw [← h2]
  have hsrc : ∀ p ∈ s.futures, ∃ t ∈ s.enqueued, t.fut = p.1 ∧ t.work = p.2 := by
    intro p hp
    exact ⟨⟨p.1, p.2⟩, dequeued_sub_enqueued hinv (hinv.fut p hp), rfl, rfl⟩
  refine ⟨hinv.futNodup, hown, ?_, hsrc, ?_⟩
  · intro t ht t' ht' hne hmem
    have := hown t ht _ hmem
    exact hne (hdist t' ht' t ht this)
  · intro hall
    obtain ⟨_, h2⟩ := drained hT hs hall
    refine ⟨?_, fun t ht => (h2 t ht).2⟩
    have hperm : (s.futures.map Prod.fst).Perm (s.enqueued.map Task.fut) := by
      rw [List.perm_ext_iff_of_nodup hinv.futNodup hinv.enqNodup]
      intro f
      constructor
      · intro hf
        obtain ⟨p, hp, rfl⟩ := List.mem_map.1 hf
        obtain ⟨t, ht, htf, _⟩ := hsrc p hp
        exact List.mem_map.2 ⟨t, ht, htf⟩
      · intro hf
        obtain ⟨t, ht, rfl⟩ := List.mem_map.1 hf
        exact List.mem_map.2 ⟨(t.fut, t.work), (h2 t ht).2, rfl⟩
    have := hperm.length_eq
    simpa using this

/-- Instance of C5: three tasks on two workers, run out of order. -/
theorem futures_paired_witness :
    ∃ s, run pairedTrace (init 2) = some s ∧
      s.futures = [(1, .value 20), (0, .value 10), (2, .failure "divide by zero")] ∧
      (s.futures.map Prod.fst).Nodup ∧
      (allExited s → s.futures.length = s.enqueued.length ∧
        ∀ t ∈ s.enqueued, (t.fut, t.work) ∈ s.futures) :=
  have h := futures_paired 2 (by decide) _ ⟨pairedTrace, rfl⟩ (by decide)
  ⟨_, rfl, rfl, h.1, h.2.2.2.2⟩

theorem getElem?_map_wake_terminated {l : List WorkerPc} {j : Nat} :
    (l.map wake)[j]? = some WorkerPc.terminated ↔ l[j]? = some WorkerPc.terminated := by
  rw [List.getElem?_map]
  cases hj : l[j]? with
  | none => simp
  | some w => cases w <;> simp [wake]

theorem noTerminated_step {a : Action} {s s' : ThreadPool} (hinv : Inv s)
    (hno : ∀ i : Nat, s.workers[i]? ≠ some WorkerPc.terminated)
    (h : step? a s = some s') : ∀ i : Nat, s'.workers[i]? ≠ some WorkerPc.terminated := by
  have hwork : ∀ (i₀ : Nat) (new : WorkerPc), new ≠ .terminated →
      ∀ i : Nat, (s.workers.set i₀ new)[i]? ≠ some WorkerPc.terminated := by
    intro i₀ new hnew i hx
    rcases getElem?_set_some.1 hx with ⟨_, _, hx⟩ | ⟨_, hx⟩
    · exact hnew hx
    · exact hno i hx
  apply step_elim_inv hinv (motive := fun s' =>
    ∀ i : Nat, s'.workers[i]? ≠ some WorkerPc.terminated) h
  case callNotify => intro c t i _ _; exact hwork i _ (by simp)
  case workerLock => intro i _ _; exact hwork i _ (by simp)
  case workerPredTrue => intro i _ _; exact hwork i _ (by simp)
  case workerPredFalse => intro i _ _; exact hwork i _ (by simp)
  case workerBlock => intro i _; exact hwork i _ (by simp)
  case workerExit => intro i _ _ _; exact hwork i _ (by simp)
  case workerPop => intro i t rest _ _; exact hwork i _ (by simp)
  case workerRun => intro i t _; exact hwork i _ (by simp)
  case spurious => intro i _; exact hwork i _ (by simp)
  case dtorNotify => intro _ i hx; exact hno i (getElem?_map_wake_terminated.1 hx)
  all_goals intros
  all_goals apply hno

/-- In a reachable state no exception has left line 43: no worker was terminated. -/
theorem noTerminated_of_reachable {threads : Nat} {s : ThreadPool}
    (hs : Reachable threads s) : ∀ i : Nat, s.workers[i]? ≠ some WorkerPc.terminated := by
  obtain ⟨as, has⟩ := hs
  have h0 : ∀ i : Nat, (init threads).workers[i]? ≠ some WorkerPc.terminated := by
    intro i h
    simp only [init] at h
    rw [List.getElem?_replicate] at h
    split at h <;> cases h
  exact (run_induction
    (P := fun s => Inv s ∧ ∀ i : Nat, s.workers[i]? ≠ some WorkerPc.terminated)
    (fun _ _ _ hP hstep => ⟨Inv_step hP.1 hstep, noTerminated_step hP.1 hP.2 hstep⟩)
    as _ s ⟨Inv_init threads, h0⟩ has).2

/-- The exception of a called packaged task does leave line 43 when the shared state
already holds a result: in such a state, which no run of the pool reaches, the worker
is terminated. -/
theorem second_call_terminates (s : ThreadPool) (i : Nat) (t : Task)
    (hrun : s.workers[i]? = some (.run t)) (hw : t.fut ∈ s.futures.map Prod.fst) :
    step? (.workerRun i) s = some { s with workers := s.workers.set i .terminated } := by
  simp only [step?, hrun, packaged_task_call_written hw]

/-- The call of line 43 in a reachable state: the shared state of the task holds no
result yet, so what the callable does is stored and the worker is back at the top of
its loop. -/
theorem workerRun_reachable {threads : Nat} {s : ThreadPool} (hs : Reachable threads s)
    {i : Nat} {t : Task} (hrun : s.workers[i]? = some (.run t)) :
    packaged_task_call s.futures t = (s.futures ++ [(t.fut, t.work)], .normal) ∧
    step? (.workerRun i) s = some { s with
      workers := s.workers.set i .top, futures := s.futures ++ [(t.fut, t.work)] } := by
  have hfresh := ((Inv_of_reachable hs).runDeq i t hrun).2
  refine ⟨packaged_task_call_fresh hfresh, ?_⟩
  simp only [step?, hrun, packaged_task_call_fresh hfresh]

/-- C6: in a reachable state, a worker at line 43 with a popped task whose work throws
takes its step as follows. The packaged task of the closure catches the exception and
stores it in its own shared state, which held no result, and the call returns: no
exception leaves `task()`, the worker is not terminated and is back at the top of its
loop. The queue, `stop`, the mutex, the calls, the other workers and the futures of the
other tasks are as before. Afterwards no worker is ever terminated, every worker that
runs a task can finish it and stores that task's own outcome in that task's future, and
a written future of an emplaced task holds that task's own outcome. -/
theorem failing_task_isolated (threads : Nat) (s : ThreadPool) (hs : Reachable threads s)
    (i : Nat) (t : Task) (e : String) (hrun : s.workers[i]? = some (.run t))
    (hfail : t.work = .failure e) :
    packaged_task_call s.futures t = (s.futures ++ [(t.fut, .failure e)], .normal) ∧
    step? (.workerRun i) s = some { s with
      workers := s.workers.set i .top, futures := s.futures ++ [(t.fut, .failure e)] } ∧
    (s.workers.set i .top)[i]? = some .top ∧
    (∀ j : Nat, j ≠ i → (s.workers.set i .top)[j]? = s.workers[j]?) ∧
    (∀ (f : Nat) (o : Outcome), f ≠ t.fut →
      ((f, o) ∈ s.futures ++ [(t.fut, .failure e)] ↔ (f, o) ∈ s.futures)) ∧
    (∀ (as : List Action) (s'' : ThreadPool), run (.workerRun i :: as) s = some s'' →
      (∀ j : Nat, s''.workers[j]? ≠ some WorkerPc.terminated) ∧
      (∀ t' ∈ s''.enqueued, ∀ o, (t'.fut, o) ∈ s''.futures → o = t'.work) ∧
      (∀ (j : Nat) (t' : Task), s''.workers[j]? = some (.run t') →
        step? (.workerRun j) s'' = some { s'' with
          workers := s''.workers.set j .top,
          futures := s''.futures ++ [(t'.fut, t'.work)] })) := by
  obtain ⟨hcall, hstep⟩ := workerRun_reachable hs hrun
  rw [hfail] at hcall hstep
  refine ⟨hcall, hstep, ?_, ?_, ?_, ?_⟩
  · exact getElem?_set_some.2 (Or.inl ⟨rfl, lt_length_of_getElem? hrun, rfl⟩)
  · intro j hj
    exact List.getElem?_set_ne (fun h => hj h.symm)
  · intro f o hf
    rw [List.mem_append, List.mem_singleton]
    constructor
    · rintro (h | h)
      · exact h
      · cases h; exact (hf rfl).elim
    · exact Or.inl
  · intro as s'' hrun'
    have hs'' : Reachable threads s'' := Reachable_run hs hrun'
    have hinv := Inv_of_reachable hs''
    refine ⟨noTerminated_of_reachable hs'', ?_, ?_⟩
    · intro t' ht' o ho
      have h1 := dequeued_sub_enqueued hinv (hinv.fut _ ho)
      have h2 := enqueued_fut_inj hinv h1 ht' rfl
      rw [← h2]
    · intro j t' hj
      exact (workerRun_reachable hs'' hj).2

/-- Instance of C6: the failing task is run by worker 0, then worker 1 runs the other
task, whose future receives its value 5; no worker is terminated. -/
theorem failing_task_isolated_witness :
    run failTrace (init 2) = some failState ∧
    packaged_task_call failState.futures ⟨0, .failure "divide by zero"⟩ =
      (failState.futures ++ [(0, .failure "divide by zero")], .normal) ∧
    step? (.workerRun 0) failState = some { failState with
      workers := failState.workers.set 0 .top,
      futures := failState.futures ++ [(0, .failure "divide by zero")] } ∧
    run [.workerRun 0, .workerRun 1] failState = some failDoneState ∧
    (∀ j : Nat, failDoneState.workers[j]? ≠ some WorkerPc.terminated) ∧
    (∀ t' ∈ failDoneState.enqueued, ∀ o, (t'.fut, o) ∈ failDoneState.futures →
      o = t'.work) :=
  have h := failing_task_isolated 2 failState ⟨failTrace, rfl⟩ 0
    ⟨0, .failure "divide by zero"⟩ "divide by zero" rfl rfl
  have h' := h.2.2.2.2.2 [.workerRun 1] failDoneState rfl
  ⟨rfl, h.1, h.2.1, rfl, h'.1, h'.2.1⟩

theorem Stuck_step {a : Action} {s s' : ThreadPool} (hs : Stuck s) (ha : a.notSpurious = true)
    (h : step? a s = some s') : Stuck s' := by
  obtain ⟨hw, hd, hstop, hc⟩ := hs
  have hset : ∀ (c₀ : Nat) (new : CallPc), (∀ t, new ≠ .emplace t) → (∀ t, new ≠ .notify t) →
      ∀ (c : Nat) (pc : CallPc), (s.calls.set c₀ new)[c]? = some pc →
        (∀ t, pc ≠ .emplace t) ∧ (∀ t, pc ≠ .notify t) := by
    intro c₀ new h1 h2 c pc hx
    rcases getElem?_set_some.1 hx with ⟨_, _, rfl⟩ | ⟨_, hx⟩
    · exact ⟨h1, h2⟩
    · exact hc c pc hx
  have hwi : ∀ (i : Nat) (pc : WorkerPc), s.workers[i]? = some pc → pc = .blocked := by
    intro i pc hi
    rw [hw] at hi
    cases i with
    | zero => simp at hi; exact hi.symm
    | succ i => simp at hi
  cases a <;> simp only [step?] at h
  case call w =>
    cases h
    refine ⟨hw, hd, hstop, ?_⟩
    intro c pc hx
    rcases getElem?_append_one.1 hx with hx | ⟨_, rfl⟩
    · exact hc c pc hx
    · exact ⟨by simp, by simp⟩
  case callLock c =>
    split at h
    · split at h
      · cases h; exact ⟨hw, hd, hstop, hset c _ (by simp) (by simp)⟩
      · cases h
    · cases h
  case callCheck c =>
    split at h
    · split at h
      · cases h; exact ⟨hw, hd, hstop, hset c _ (by simp) (by simp)⟩
      · rename_i hns
        exact (hns hstop).elim
    · cases h
  case callEmplace c =>
    split at h
    · rename_i t hx
      exact ((hc c _ hx).1 t rfl).elim
    · cases h
  case callNotify c woken =>
    split at h
    · rename_i t hx
      exact ((hc c _ hx).2 t rfl).elim
    · cases h
  case workerLock i =>
    split at h
    · rename_i hx
      cases hwi i _ hx.1
    · cases h
  case workerPred i =>
    split at h
    · rename_i hx
      cases hwi i _ hx
    · cases h
  case workerBlock i =>
    split at h
    · rename_i hx
      cases hwi i _ hx
    · cases h
  case workerWake i =>
    split at h
    · rename_i hx
      cases hwi i _ hx.1
    · cases h
  case workerCheck i =>
    split at h
    · rename_i hx
      cases hwi i _ hx
    · cases h
  case workerRun i =>
    split at h
    · rename_i t hx
      cases hwi i _ hx
    · cases h
  case spurious i => cases ha
  case dtorStore =>
    rw [hd] at h
    simp at h
  case dtorNotify =>
    rw [hd] at h
    simp at h
  case dtorJoin =>
    rw [hd, hw] at h
    simp at h
  case dtorReturn =>
    rw [hd, hw] at h
    simp at h

/-- C7 fails on the code. A pool of one worker is constructed and destroyed at once,
with no submission. The worker finds the predicate of `wait` false; the destructor,
which does not take the mutex, sets `stop` and calls `notify_all` before the worker
blocks; the worker then blocks. From that state on, whatever steps are taken other
than a spurious wakeup (calls of `enqueue` included), the worker stays blocked and the
destructor stays in `join`. -/
theorem shutdown_lost_wakeup :
    run lostWakeupTrace (init 1) = some lostWakeupState ∧
    lostWakeupState.stop = true ∧ lostWakeupState.dtor = .joining 0 ∧
    lostWakeupState.workers = [.blocked] ∧ lostWakeupState.tasks = [] ∧
    ∀ (as : List Action) (s' : ThreadPool), (∀ a ∈ as, a.notSpurious = true) →
      run as lostWakeupState = some s' →
      s'.workers = [.blocked] ∧ s'.dtor = .joining 0 ∧ ¬ allExited s' := by
  refine ⟨rfl, rfl, rfl, rfl, rfl, ?_⟩
  have hmain : ∀ (as : List Action) (s s' : ThreadPool), Stuck s →
      (∀ a ∈ as, a.notSpurious = true) → run as s = some s' → Stuck s' := by
    intro as
    induction as with
    | nil =>
      intro s s' hs _ h
      simp only [run] at h
      cases h
      exact hs
    | cons a as ih =>
      intro s s' hs hall h
      simp only [run] at h
      cases hstep : step? a s with
      | none => rw [hstep] at h; cases h
      | some s₁ =>
        rw [hstep] at h
        exact ih s₁ s' (Stuck_step hs (hall a (List.mem_cons_self _ _)) hstep)
          (fun b hb => hall b (List.mem_cons_of_mem _ hb)) h
  intro as s' hall h
  have h0 : Stuck lostWakeupState := by
    refine ⟨rfl, rfl, rfl, ?_⟩
    intro c pc hx
    simp [lostWakeupState] at hx
  obtain ⟨hw, hd, _, _⟩ := hmain as _ s' h0 hall h
  refine ⟨hw, hd, ?_⟩
  unfold allExited
  rw [hw]
  simp

/-- C9 fails on the code. Every step that reads or writes the queue or reads `stop`
(lines 36-40, 64, 66) is taken by the thread that holds `queue_mutex`; line 49 of the
destructor writes `stop` and is taken without it: in the pool of one worker it can be
taken while the worker holds the mutex, and while no thread does. -/
theorem stop_written_without_mutex :
    (∀ (threads : Nat) (s s' : ThreadPool) (a : Action), Reachable threads s →
      step? a s = some s' → a.accessesShared = true → a ≠ .dtorStore →
      s.queue_mutex = some (a.actor s)) ∧
    (∃ s s', run [.workerLock 0] (init 1) = some s ∧ s.queue_mutex = some (.worker 0) ∧
      Action.accessesShared .dtorStore = true ∧
      step? .dtorStore s = some s' ∧ s.stop = false ∧ s'.stop = true ∧
      s.queue_mutex ≠ some (Action.actor s .dtorStore)) ∧
    (∃ s', step? .dtorStore (init 1) = some s' ∧ (init 1).queue_mutex = none ∧
      s'.stop ≠ (init 1).stop) := by
  refine ⟨?_, ⟨_, _, rfl, rfl, rfl, rfl, rfl, rfl, by decide⟩, ⟨_, rfl, rfl, by decide⟩⟩
  intro threads s s' a hs h hacc hne
  have hinv := Inv_of_reachable hs
  cases a <;> simp only [Action.accessesShared] at hacc <;> simp only [step?] at h
  case callCheck c =>
    split at h
    · rename_i t hx
      exact hinv.mutexC c _ hx rfl
    · cases h
  case callEmplace c =>
    split at h
    · rename_i t hx
      exact hinv.mutexC c _ hx rfl
    · cases h
  case workerPred i =>
    split at h
    · rename_i hx
      exact hinv.mutexW i _ hx rfl
    · cases h
  case workerCheck i =>
    split at h
    · rename_i hx
      exact hinv.mutexW i _ hx rfl
    · cases h
  case dtorStore => exact (hne rfl).elim
  all_goals cases hacc

end Paralels
